import Mathlib

/-!
Formal model of the tianshu task-queue core (`src/backend/task_db.py`,
`src/backend/redis_queue.py`, `src/backend/api_server.py`,
`src/backend/litserve_worker.py`,
`src/backend/output_normalizer/base_output_normalizer.py`).

The SQLite `tasks` table is modelled as a list of task rows; every store
operation is a pure function on that list translated from the SQL it
executes.  Timestamps are naturals (seconds since an arbitrary origin).
The Redis sorted-set queue is modelled with rational scores.
-/

namespace Tianshu

/-- Task status column: one of pending/processing/completed/failed/cancelled. -/
inductive Status where
  | pending
  | processing
  | completed
  | failed
  | cancelled
deriving DecidableEq, Repr

/-- One row of the `tasks` table (`task_db.py`, `_init_db`). -/
structure Task where
  task_id : String
  file_name : String := ""
  file_path : Option String := none
  status : Status := .pending
  priority : Int := 0
  backend : String := "pipeline"
  result_path : Option String := none
  error_message : Option String := none
  created_at : Nat := 0
  started_at : Option Nat := none
  completed_at : Option Nat := none
  worker_id : Option String := none
  retry_count : Nat := 0
  parent_task_id : Option String := none
  is_parent : Bool := false
  child_count : Nat := 0
  child_completed : Nat := 0
  user_id : Option String := none
deriving DecidableEq, Repr

/-- The database: the list of rows of the `tasks` table. -/
abbrev DB := List Task

/-- `SELECT * FROM tasks WHERE task_id = ?` (first matching row). -/
def findTask (db : DB) (tid : String) : Option Task :=
  db.find? (fun t => t.task_id == tid)

/-- `UPDATE tasks SET ... WHERE p`: rewrite every row satisfying `p` with `f`. -/
def updateRows (db : DB) (p : Task → Bool) (f : Task → Task) : DB :=
  db.map (fun t => if p t then f t else t)

/-- `cursor.rowcount` of an `UPDATE ... WHERE p`. -/
def matchCount (db : DB) (p : Task → Bool) : Nat :=
  (db.filter p).length

/-- The `task_id` column is the primary key: pairwise distinct. -/
def uniqueKeys (db : DB) : Prop :=
  (db.map Task.task_id).Nodup

/--
`INSERT INTO tasks (task_id, file_name, file_path, backend, options, priority,
user_id)` of `TaskDB.create_task`: a new row with default status `'pending'`.
The generated UUID is passed in as `tid`; `options` is kept abstract.
-/
def insertTaskRow (db : DB) (tid fn fp bk : String) (prio : Int)
    (uid : Option String) (now : Nat) : DB :=
  db ++ [{ task_id := tid
           file_name := fn
           file_path := some fp
           backend := bk
           priority := prio
           user_id := uid
           created_at := now
           status := .pending }]

/-! ## Generic `ORDER BY ... LIMIT 1` selection

Both queue realizations pick the least element of a strict order: the
SQLite `SELECT` with `ORDER BY ... LIMIT 1`, and `BZPOPMIN` on the Redis
sorted set.  `pickBest lt l` keeps the first strictly-least element.
-/

/-- The fold step keeping the current best candidate. -/
def bestStep {α : Type} (lt : α → α → Bool) (acc : Option α) (x : α) :
    Option α :=
  match acc with
  | none => some x
  | some b => if lt x b then some x else some b

def pickBest {α : Type} (lt : α → α → Bool) (l : List α) : Option α :=
  l.foldl (bestStep lt) none

theorem pickBest_go_mem {α : Type} (lt : α → α → Bool) (l : List α) :
    ∀ (acc : Option α) (t : α),
      l.foldl (bestStep lt) acc = some t → acc = some t ∨ t ∈ l := by
  induction l with
  | nil => intro acc t h; exact Or.inl h
  | cons x xs ih =>
      intro acc t h
      rw [List.foldl_cons] at h
      rcases ih _ t h with h' | h'
      · match acc with
        | none =>
            have hx : x = t := by simpa [bestStep] using h'
            exact Or.inr (hx ▸ List.mem_cons_self x xs)
        | some b =>
            by_cases hlt : lt x b = true
            · have hx : x = t := by simpa [bestStep, hlt] using h'
              exact Or.inr (hx ▸ List.mem_cons_self x xs)
            · have hb : b = t := by simpa [bestStep, hlt] using h'
              exact Or.inl (by rw [hb])
      · exact Or.inr (List.mem_cons_of_mem _ h')

/-- If the fold starts from champion `b` and ends at `t`, then `t` is `b`
or strictly beats `b`. -/
theorem pickBest_go_improves {α : Type} (lt : α → α → Bool)
    (htrans : ∀ a b c, lt a b = true → lt b c = true → lt a c = true)
    (l : List α) :
    ∀ (b t : α),
      l.foldl (bestStep lt) (some b) = some t → t = b ∨ lt t b = true := by
  induction l with
  | nil =>
      intro b t h
      exact Or.inl (by simpa using h.symm)
  | cons x xs ih =>
      intro b t h
      rw [List.foldl_cons] at h
      by_cases hlt : lt x b = true
      · rw [show bestStep lt (some b) x = some x by simp [bestStep, hlt]] at h
        rcases ih x t h with rfl | h'
        · exact Or.inr hlt
        · exact Or.inr (htrans _ _ _ h' hlt)
      · rw [show bestStep lt (some b) x = some b by simp [bestStep, hlt]] at h
        exact ih b t h

/-- No element of the list strictly beats the selected element. -/
theorem pickBest_go_optimal {α : Type} (lt : α → α → Bool)
    (htrans : ∀ a b c, lt a b = true → lt b c = true → lt a c = true)
    (hirr : ∀ a, lt a a = false)
    (l : List α) :
    ∀ (acc : Option α) (t : α),
      l.foldl (bestStep lt) acc = some t → ∀ u ∈ l, lt u t = false := by
  induction l with
  | nil => intro acc t _ u hu; exact absurd hu (List.not_mem_nil u)
  | cons x xs ih =>
      intro acc t h u hu
      rw [List.foldl_cons] at h
      -- The champion after processing `x` is some `c` with `c = x` or
      -- `lt x c = false`.
      obtain ⟨c, hc, hxc⟩ :
          ∃ c, bestStep lt acc x = some c ∧ (c = x ∨ lt x c = false) := by
        match acc with
        | none => exact ⟨x, by simp [bestStep], Or.inl rfl⟩
        | some b =>
            by_cases hlt : lt x b = true
            · exact ⟨x, by simp [bestStep, hlt], Or.inl rfl⟩
            · exact ⟨b, by simp [bestStep, hlt],
                Or.inr (Bool.eq_false_iff.mpr hlt)⟩
      rw [hc] at h
      rcases List.mem_cons.mp hu with heq | hu'
      · -- `u = x`; show `lt x t = false`.
        subst heq
        by_cases hut : lt u t = true
        · exfalso
          rcases pickBest_go_improves lt htrans xs c t h with rfl | himp
          · rcases hxc with rfl | hxc
            · rw [hirr] at hut; exact Bool.noConfusion hut
            · rw [hxc] at hut; exact Bool.noConfusion hut
          · have huc : lt u c = true := htrans _ _ _ hut himp
            rcases hxc with rfl | hxc
            · rw [hirr] at huc; exact Bool.noConfusion huc
            · rw [hxc] at huc; exact Bool.noConfusion huc
        · exact Bool.eq_false_iff.mpr hut
      · exact ih _ t h u hu'

theorem pickBest_mem {α : Type} (lt : α → α → Bool) (l : List α) (t : α)
    (h : pickBest lt l = some t) : t ∈ l := by
  rcases pickBest_go_mem lt l none t h with h' | h'
  · exact absurd h' (by simp)
  · exact h'

theorem pickBest_optimal {α : Type} (lt : α → α → Bool)
    (htrans : ∀ a b c, lt a b = true → lt b c = true → lt a c = true)
    (hirr : ∀ a, lt a a = false)
    (l : List α) (t : α) (h : pickBest lt l = some t) :
    ∀ u ∈ l, lt u t = false :=
  pickBest_go_optimal lt htrans hirr l none t h

/-! ## Embedded queue: `TaskDB.get_next_task` (SQLite path)

`SELECT * FROM tasks WHERE status = 'pending'
 ORDER BY priority DESC, created_at ASC LIMIT 1`
followed by
`UPDATE tasks SET status = 'processing', started_at = CURRENT_TIMESTAMP,
 worker_id = ? WHERE task_id = ? AND status = 'pending'`,
with a `rowcount` check; on a lost race the loop retries, up to
`max_retries = 3` attempts in total.
-/

/-- Sort key of the `ORDER BY priority DESC, created_at ASC` clause. -/
def taskKey (t : Task) : Int × Int := (-t.priority, (t.created_at : Int))

/-- Row `a` sorts strictly before row `b` under the `ORDER BY` clause. -/
def better (a b : Task) : Bool :=
  decide ((taskKey a).1 < (taskKey b).1 ∨
    ((taskKey a).1 = (taskKey b).1 ∧ (taskKey a).2 < (taskKey b).2))

theorem better_trans :
    ∀ a b c, better a b = true → better b c = true → better a c = true := by
  intro a b c hab hbc
  simp only [better, decide_eq_true_eq] at *
  rcases hab with h1 | ⟨h1e, h1r⟩ <;> rcases hbc with h2 | ⟨h2e, h2r⟩
  · exact Or.inl (lt_trans h1 h2)
  · exact Or.inl (h2e ▸ h1)
  · exact Or.inl (h1e ▸ h2)
  · exact Or.inr ⟨h1e.trans h2e, lt_trans h1r h2r⟩

theorem better_irrefl : ∀ a, better a a = false := by
  intro a
  simp [better]

/-- The row returned by the `SELECT ... LIMIT 1` of `get_next_task`. -/
def selectNextPending (db : DB) : Option Task :=
  pickBest better (db.filter (fun t => t.status == .pending))

/--
The pending→processing CAS:
`UPDATE tasks SET status='processing', started_at=CURRENT_TIMESTAMP,
 worker_id=? WHERE task_id = ? AND status = 'pending'`.
The second component is `cursor.rowcount > 0`.
-/
def casClaim (db : DB) (tid w : String) (now : Nat) : DB × Bool :=
  (updateRows db (fun t => t.task_id == tid && t.status == .pending)
      (fun t =>
        { t with status := .processing
                 started_at := some now
                 worker_id := some w }),
   db.any (fun t => t.task_id == tid && t.status == .pending))

/-- Outcome of one iteration of the `get_next_task` retry loop. -/
inductive ClaimOutcome where
  | empty
  | contended (after : DB)
  | claimed (t : Task) (after : DB)
deriving DecidableEq, Repr

/--
One attempt of the SQLite claim: select from the read snapshot `dbRead`,
CAS against the write-time state `dbWrite` (always equal to `dbRead` within
one `BEGIN IMMEDIATE` transaction; allowed to differ to model the race the
retry loop defends against).  Returns the row as selected (the Python code
returns `dict(task)` from the `SELECT`).
-/
def claimOnce (dbRead dbWrite : DB) (w : String) (now : Nat) : ClaimOutcome :=
  match selectNextPending dbRead with
  | none => .empty
  | some t =>
      let r := casClaim dbWrite t.task_id w now
      if r.2 then .claimed t r.1 else .contended r.1

/-- The `for attempt in range(max_retries)` loop of `get_next_task`:
`reads i` / `writes i` are the states seen by attempt `i`. -/
def claimLoop (reads writes : Nat → DB) (w : String) (now : Nat) :
    Nat → Nat → Option (Task × DB)
  | _, 0 => none
  | attempt, fuel + 1 =>
      match claimOnce (reads attempt) (writes attempt) w now with
      | .empty => none
      | .claimed t after => some (t, after)
      | .contended _ => claimLoop reads writes w now (attempt + 1) fuel

/-- `TaskDB.get_next_task` (SQLite path), `max_retries = 3`. -/
def get_next_task (reads writes : Nat → DB) (w : String) (now : Nat) :
    Option (Task × DB) :=
  claimLoop reads writes w now 0 3

/--
`TaskDB._get_next_task_redis`: the task id handed out by `BZPOPMIN` is
looked up in SQLite and CASed pending→processing; a failed CAS yields no
task.  The returned row is the pre-CAS snapshot (`dict(task)`).
-/
def get_next_task_redis (db : DB) (dequeuedTid : Option String)
    (w : String) (now : Nat) : Option Task × DB :=
  match dequeuedTid with
  | none => (none, db)
  | some tid =>
      match findTask db tid with
      | none => (none, db)
      | some t =>
          let r := casClaim db tid w now
          if r.2 then (some t, r.1) else (none, r.1)

/-! ## `TaskDB.update_task_status` and the other store mutations -/

/-- The `WHERE` clause of the completed/failed templates:
`task_id = ? AND status = 'processing'`, plus `AND worker_id = ?` when a
worker id is supplied. -/
def finishGuard (tid : String) (worker : Option String) (t : Task) : Bool :=
  t.task_id == tid && t.status == .processing &&
    (match worker with
     | some w => t.worker_id == some w
     | none => true)

/--
`TaskDB.update_task_status(task_id, status, result_path, error_message,
worker_id)`: one of five predefined SQL templates, chosen by the target
status.  Second component is the returned success flag (`rowcount > 0`).
-/
def update_task_status (db : DB) (tid : String) (st : Status)
    (rp em : Option String) (worker : Option String) (now : Nat) :
    DB × Bool :=
  match st with
  | .completed =>
      (updateRows db (finishGuard tid worker)
         (fun t =>
           { t with status := .completed
                    completed_at := some now
                    result_path := rp }),
       db.any (finishGuard tid worker))
  | .failed =>
      (updateRows db (finishGuard tid worker)
         (fun t =>
           { t with status := .failed
                    completed_at := some now
                    error_message := em }),
       db.any (finishGuard tid worker))
  | .cancelled =>
      (updateRows db (fun t => t.task_id == tid)
         (fun t => { t with status := .cancelled, completed_at := some now }),
       db.any (fun t => t.task_id == tid))
  | .pending =>
      (updateRows db (fun t => t.task_id == tid)
         (fun t =>
           { t with status := .pending
                    worker_id := none
                    started_at := none }),
       db.any (fun t => t.task_id == tid))
  | .processing =>
      (updateRows db (fun t => t.task_id == tid)
         (fun t => { t with status := .processing }),
       db.any (fun t => t.task_id == tid))

/-- The `WHERE status = 'processing' AND started_at < datetime('now',
'-X minutes')` clause of `TaskDB.reset_stale_tasks`. -/
def staleGuard (timeoutMin now : Nat) (t : Task) : Bool :=
  t.status == .processing &&
    (match t.started_at with
     | some s => decide (s + timeoutMin * 60 < now)
     | none => false)

/-- `TaskDB.reset_stale_tasks(timeout_minutes)`: move timed-out processing
rows back to pending, null `worker_id`, bump `retry_count`.  Returns the
reset count. -/
def reset_stale_tasks (db : DB) (timeoutMin now : Nat) : DB × Nat :=
  (updateRows db (staleGuard timeoutMin now)
     (fun t =>
       { t with status := .pending
                worker_id := none
                retry_count := t.retry_count + 1 }),
   matchCount db (staleGuard timeoutMin now))

/-- `TaskDB.convert_to_parent_task(task_id, child_count)`:
`UPDATE tasks SET is_parent = 1, child_count = ?, status = 'processing'
 WHERE task_id = ?` (no status guard). -/
def convert_to_parent_task (db : DB) (tid : String) (cc : Nat) : DB :=
  updateRows db (fun t => t.task_id == tid)
    (fun t => { t with is_parent := true, child_count := cc,
                       status := .processing })

/-- `TaskDB.create_child_task`: insert the child row as pending with
`parent_task_id` set, then `UPDATE tasks SET child_count = child_count + 1
 WHERE task_id = parent`. -/
def create_child_task (db : DB) (pid tid fn fp bk : String) (prio : Int)
    (uid : Option String) (now : Nat) : DB :=
  let db1 := db ++ [{ task_id := tid
                      parent_task_id := some pid
                      file_name := fn
                      file_path := some fp
                      backend := bk
                      priority := prio
                      user_id := uid
                      created_at := now
                      status := .pending }]
  updateRows db1 (fun t => t.task_id == pid)
    (fun t => { t with child_count := t.child_count + 1 })

/-- `SELECT parent_task_id FROM tasks WHERE task_id = ?`, collapsing the
"row absent" and "parent_task_id NULL" cases as the Python code does. -/
def childParent (db : DB) (childTid : String) : Option String :=
  match findTask db childTid with
  | none => none
  | some c => c.parent_task_id

/-- `UPDATE tasks SET child_completed = child_completed + 1
 WHERE task_id = ?`. -/
def bumpChildCompleted (db : DB) (pid : String) : DB :=
  updateRows db (fun t => t.task_id == pid)
    (fun t => { t with child_completed := t.child_completed + 1 })

/-- Body of `on_child_task_completed` once the parent id is known: bump
the counter, re-read the parent, and report readiness when
`child_completed >= child_count`. -/
def onChildCompletedCore (db : DB) (pid : String) : DB × Option String :=
  match findTask (bumpChildCompleted db pid) pid with
  | none => (bumpChildCompleted db pid, none)
  | some p =>
      if p.child_count ≤ p.child_completed
      then (bumpChildCompleted db pid, some pid)
      else (bumpChildCompleted db pid, none)

/-- `TaskDB.on_child_task_completed(child_task_id)`: bump the parent's
`child_completed`; return the parent id when the new count reaches
`child_count` (the code compares with `>=`). -/
def on_child_task_completed (db : DB) (childTid : String) :
    DB × Option String :=
  match childParent db childTid with
  | none => (db, none)
  | some pid => onChildCompletedCore db pid

/-- `TaskDB.on_child_task_failed(child_task_id, error_message)`: mark the
parent failed, guarded by `status = 'processing'`. -/
def on_child_task_failed (db : DB) (childTid err : String) (now : Nat) :
    DB :=
  match childParent db childTid with
  | none => db
  | some pid =>
      updateRows db
        (fun t => t.task_id == pid && t.status == .processing)
        (fun t =>
          { t with status := .failed
                   completed_at := some now
                   error_message :=
                     some ("Subtask " ++ childTid ++ " failed: " ++ err) })

/-! ## Redis queue (`redis_queue.py`) -/

/-- The Redis sorted set `tianshu:task_queue`: members with scores. -/
abbrev RQueue := List (String × ℚ)

/-- `score = -priority * 1e10 + timestamp` (`RedisTaskQueue.enqueue`). -/
def redisScore (priority : Int) (ts : ℚ) : ℚ :=
  -(priority : ℚ) * 10000000000 + ts

/-- `ZADD queue {task_id: score}`: update the member's score, or add it. -/
def zadd (q : RQueue) (tid : String) (sc : ℚ) : RQueue :=
  if q.any (fun e => e.1 == tid) then
    q.map (fun e => if e.1 == tid then (e.1, sc) else e)
  else q ++ [(tid, sc)]

/-- `RedisTaskQueue.enqueue(task_id, priority)` at enqueue time `ts`. -/
def rqEnqueue (q : RQueue) (tid : String) (priority : Int) (ts : ℚ) :
    RQueue :=
  zadd q tid (redisScore priority ts)

/-- Scores compare strictly; `BZPOPMIN` pops a least-score member. -/
def scoreLt (a b : String × ℚ) : Bool := decide (a.2 < b.2)

/-- `BZPOPMIN queue`: the member popped (the queue shrinks by it). -/
def bzpopmin (q : RQueue) : Option (String × ℚ) :=
  pickBest scoreLt q

/-! ## `TaskDB.create_task` (row insert committed, then Redis publish)

`create_task` commits the `INSERT` when the `get_cursor` context exits and
only then calls `_enqueue_to_redis`, which catches any publish failure and
returns `False` (SQLite fallback).  `redisOn` models "a Redis queue is
configured and enabled"; `publishOk` models whether the `ZADD` pipeline
succeeded or raised.
-/
def create_task (db : DB) (q : RQueue) (redisOn publishOk : Bool)
    (tid fn fp bk : String) (prio : Int) (uid : Option String)
    (now : Nat) (ts : ℚ) : DB × RQueue :=
  let db' := insertTaskRow db tid fn fp bk prio uid now
  let q' := if redisOn && publishOk then rqEnqueue q tid prio ts else q
  (db', q')

/-! ## Worker composites (`litserve_worker.py`) and the API cancel -/

/-- The `if parent_task_id:` tail of the worker's success path: notify the
parent and, when all children are done, run the merger, whose final act is
to finalize the parent as completed with the parent output directory. -/
def mergeStep (db1 : DB) (tid parentRp : String) (now : Nat) : DB :=
  if (childParent db1 tid).isSome then
    match (on_child_task_completed db1 tid).2 with
    | none => (on_child_task_completed db1 tid).1
    | some pid =>
        (update_task_status (on_child_task_completed db1 tid).1 pid
          .completed (some parentRp) none none now).1
  else db1

/--
Success epilogue of `MinerUWorkerAPI._process_task` (lines 672–711):
finalize completed — with **no** `worker_id` argument — ignoring the
returned success flag; then, when the task is a child, run
`on_child_task_completed`; when that reports all children done, run the
merger and finalize the parent.
-/
def workerFinishSuccess (db : DB) (tid rp parentRp : String) (now : Nat) :
    DB :=
  mergeStep (update_task_status db tid .completed (some rp) none none now).1
    tid parentRp now

/-- The `if parent_task_id:` tail of the worker's failure path. -/
def failStep (db1 : DB) (tid err : String) (now : Nat) : DB :=
  if (childParent db1 tid).isSome then on_child_task_failed db1 tid err now
  else db1

/-- Failure epilogue of `MinerUWorkerAPI._process_task` (lines 726–732):
finalize failed (again without `worker_id`), then `on_child_task_failed`
when the task is a child. -/
def workerFinishFailure (db : DB) (tid err : String) (now : Nat) : DB :=
  failStep (update_task_status db tid .failed none (some err) none now).1
    tid err now

/-- Result of `DELETE /api/v1/tasks/{task_id}` (`api_server.cancel_task`). -/
inductive CancelResult where
  | notFound
  | forbidden
  | badRequest (current : Status)
  | success
deriving DecidableEq, Repr

/--
`api_server.cancel_task`: 404 when the row is absent; 403 when the caller
owns neither the task nor `TASK_DELETE_ALL`; when pending, set cancelled
and unlink the upload file; otherwise HTTP 400 whose detail carries the
current status.  `files` is the set of existing upload files.
-/
def cancel_task (db : DB) (files : List String) (tid : String)
    (uid : Option String) (canDeleteAll : Bool) (now : Nat) :
    CancelResult × DB × List String :=
  match findTask db tid with
  | none => (.notFound, db, files)
  | some task =>
      if !canDeleteAll && !(task.user_id == uid) then (.forbidden, db, files)
      else if task.status == .pending then
        let db' := (update_task_status db tid .cancelled none none none now).1
        let files' :=
          match task.file_path with
          | some fp => files.filter (fun q => !(q == fp))
          | none => files
        (.success, db', files')
      else (.badRequest task.status, db, files)

/-! ## Basic lemmas about row updates and lookups -/

theorem updateRows_eq_self {db : DB} {p : Task → Bool} {f : Task → Task}
    (h : ∀ t ∈ db, p t = false) : updateRows db p f = db := by
  unfold updateRows
  induction db with
  | nil => rfl
  | cons x xs ih =>
      simp only [List.map_cons]
      rw [h x (List.mem_cons_self x xs), if_neg (by simp)]
      rw [ih (fun t ht => h t (List.mem_cons_of_mem x ht))]

theorem mem_updateRows {db : DB} {p : Task → Bool} {f : Task → Task}
    {u' : Task} (h : u' ∈ updateRows db p f) :
    ∃ u ∈ db, u' = if p u then f u else u := by
  unfold updateRows at h
  rcases List.mem_map.mp h with ⟨u, hu, he⟩
  exact ⟨u, hu, he.symm⟩

theorem findTask_updateRows (db : DB) (p : Task → Bool) (f : Task → Task)
    (tid : String) (hf : ∀ t, (f t).task_id = t.task_id) :
    findTask (updateRows db p f) tid =
      (findTask db tid).map (fun t => if p t then f t else t) := by
  unfold findTask updateRows
  induction db with
  | nil => rfl
  | cons x xs ih =>
      simp only [List.map_cons]
      by_cases hx : (x.task_id == tid) = true
      · have hx' : ((if p x then f x else x).task_id == tid) = true := by
          by_cases hp : p x = true
          · simpa [hp, hf x] using hx
          · simpa [hp] using hx
        simp only [List.find?_cons, hx, hx']
        rfl
      · have hxf : (x.task_id == tid) = false := Bool.eq_false_iff.mpr hx
        have hx' : ((if p x then f x else x).task_id == tid) = false := by
          by_cases hp : p x = true
          · simpa [hp, hf x] using hxf
          · simpa [hp] using hxf
        simp only [List.find?_cons, hxf, hx']
        exact ih

theorem findTask_append_right {db : DB} {tid : String} {row : Task}
    (h : findTask db tid = none) :
    findTask (db ++ [row]) tid =
      if row.task_id == tid then some row else none := by
  unfold findTask at *
  rw [List.find?_append, h]
  by_cases hr : row.task_id == tid
  · simp [hr, List.find?]
  · simp [List.find?, hr]

theorem findTask_append_left {db : DB} {tid : String} {t : Task}
    (h : findTask db tid = some t) (rest : DB) :
    findTask (db ++ rest) tid = some t := by
  unfold findTask at *
  rw [List.find?_append, h]
  rfl

theorem findTask_mem {db : DB} {tid : String} {t : Task}
    (h : findTask db tid = some t) : t ∈ db :=
  List.mem_of_find?_eq_some h

theorem findTask_id {db : DB} {tid : String} {t : Task}
    (h : findTask db tid = some t) : t.task_id = tid := by
  have := List.find?_some h
  simpa using this

/-- With a unique primary key, a satisfied `WHERE task_id = ? AND q` clause
pins down the row `SELECT ... WHERE task_id = ?` returns. -/
theorem unique_any {db : DB} {tid : String} {q : Task → Bool}
    (hu : uniqueKeys db)
    (h : db.any (fun t => t.task_id == tid && q t) = true) :
    ∃ t, findTask db tid = some t ∧ q t = true := by
  rcases List.any_eq_true.mp h with ⟨u, hu_mem, hq⟩
  have hid : u.task_id = tid := by
    have := (Bool.and_eq_true _ _ |>.mp hq).1
    simpa using this
  have hqu : q u = true := (Bool.and_eq_true _ _ |>.mp hq).2
  -- `find?` succeeds and returns `u` itself, by key uniqueness.
  have hsome : (findTask db tid).isSome := by
    unfold findTask
    rw [List.find?_isSome]
    exact ⟨u, hu_mem, by simpa using hid⟩
  rcases Option.isSome_iff_exists.mp hsome with ⟨v, hv⟩
  have hv_mem : v ∈ db := findTask_mem hv
  have hv_id : v.task_id = tid := findTask_id hv
  have : u = v :=
    List.inj_on_of_nodup_map hu hu_mem hv_mem (by rw [hid, hv_id])
  exact ⟨v, hv, this ▸ hqu⟩

/-! ## Trace semantics

The operations actually issued against the store by the API server, the
workers and the admin sweeps, in the order some serial schedule commits
them (each is one SQLite transaction).
-/

inductive Op where
  | create (tid fn fp bk : String) (prio : Int) (uid : Option String)
      (now : Nat)
  | claim (w : String) (now : Nat)
  | finishSuccess (tid rp parentRp : String) (now : Nat)
  | finishFailure (tid err : String) (now : Nat)
  | resetStale (timeoutMin now : Nat)
  | cancel (tid : String) (uid : Option String) (canDeleteAll : Bool)
      (now : Nat)
  | convertParent (tid : String) (cc : Nat)
  | createChild (pid tid fn fp bk : String) (prio : Int)
      (uid : Option String) (now : Nat)
deriving DecidableEq, Repr

def applyOp (db : DB) : Op → DB
  | .create tid fn fp bk prio uid now =>
      insertTaskRow db tid fn fp bk prio uid now
  | .claim w now =>
      match selectNextPending db with
      | none => db
      | some t => (casClaim db t.task_id w now).1
  | .finishSuccess tid rp prp now => workerFinishSuccess db tid rp prp now
  | .finishFailure tid err now => workerFinishFailure db tid err now
  | .resetStale m now => (reset_stale_tasks db m now).1
  | .cancel tid uid all now => (cancel_task db [] tid uid all now).2.1
  | .convertParent tid cc => convert_to_parent_task db tid cc
  | .createChild pid tid fn fp bk prio uid now =>
      create_child_task db pid tid fn fp bk prio uid now

def applyOps (db : DB) (ops : List Op) : DB := ops.foldl applyOp db

/-- The id of the row freshly inserted by an operation, if any. -/
def newId : Op → Option String
  | .create tid _ _ _ _ _ _ => some tid
  | .createChild _ tid _ _ _ _ _ _ => some tid
  | _ => none

/-- The row unconditionally forced to processing by a parent conversion. -/
def convertTarget : Op → Option String
  | .convertParent tid _ => some tid
  | _ => none

/--
The operation neither inserts a fresh row under id `tid` (UUIDs are fresh)
nor converts `tid` to a parent (the worker converts only the task it has
just claimed, which a row already in a terminal status never is).
-/
def avoidsId (tid : String) (op : Op) : Prop :=
  newId op ≠ some tid ∧ convertTarget op ≠ some tid

/-- Every row carrying a given id sits in a given terminal status. -/
def lockedAt (db : DB) (tid : String) (s : Status) : Prop :=
  ∀ u ∈ db, u.task_id = tid → u.status = s

theorem lockedAt_append {db : DB} {tid : String} {s : Status} {row : Task}
    (h : lockedAt db tid s) (hr : row.task_id ≠ tid) :
    lockedAt (db ++ [row]) tid s := by
  intro u hu hid
  rcases List.mem_append.mp hu with h' | h'
  · exact h u h' hid
  · rcases List.mem_singleton.mp h' with rfl
    exact absurd hid hr

theorem lockedAt_update_of_guard {db : DB} {tid : String} {s : Status}
    {p : Task → Bool} {f : Task → Task}
    (hf : ∀ u, (f u).task_id = u.task_id)
    (hc : ∀ u, u ∈ db → u.task_id = tid → u.status = s → p u = true →
      (f u).status = s)
    (h : lockedAt db tid s) : lockedAt (updateRows db p f) tid s := by
  intro u' hu' hid
  rcases mem_updateRows hu' with ⟨u, hu, rfl⟩
  by_cases hp : p u = true
  · rw [if_pos hp] at hid ⊢
    have huid : u.task_id = tid := by rw [← hf u]; exact hid
    exact hc u hu huid (h u hu huid) hp
  · rw [if_neg hp] at hid ⊢
    exact h u hu hid

theorem lockedAt_casClaim {db : DB} {tid tid' w : String} {s : Status}
    {now : Nat} (hsp : s ≠ .pending) (h : lockedAt db tid s) :
    lockedAt (casClaim db tid' w now).1 tid s := by
  refine lockedAt_update_of_guard (by intro u; rfl) ?_ h
  intro u _ _ hus hp
  have : u.status = .pending := by
    have := (Bool.and_eq_true _ _ |>.mp hp).2
    simpa using this
  exact absurd (hus.symm.trans this) hsp

theorem lockedAt_finishUpdate {db : DB} {tid tid' : String} {s : Status}
    {st : Status} {rp em : Option String} {worker : Option String}
    {now : Nat} (hsr : s ≠ .processing)
    (hst : st = .completed ∨ st = .failed)
    (h : lockedAt db tid s) :
    lockedAt (update_task_status db tid' st rp em worker now).1 tid s := by
  have key : ∀ (g : Task → Task), (∀ u, (g u).task_id = u.task_id) →
      lockedAt (updateRows db (finishGuard tid' worker) g) tid s := by
    intro g hg
    refine lockedAt_update_of_guard hg ?_ h
    intro u _ _ hus hp
    have : u.status = .processing := by
      have := (Bool.and_eq_true _ _ |>.mp
        (Bool.and_eq_true _ _ |>.mp hp).1).2
      simpa using this
    exact absurd (hus.symm.trans this) hsr
  rcases hst with rfl | rfl
  · exact key _ (by intro u; rfl)
  · exact key _ (by intro u; rfl)

theorem lockedAt_reset_stale {db : DB} {tid : String} {s : Status}
    {m now : Nat} (hsr : s ≠ .processing) (h : lockedAt db tid s) :
    lockedAt (reset_stale_tasks db m now).1 tid s := by
  refine lockedAt_update_of_guard (by intro u; rfl) ?_ h
  intro u _ _ hus hp
  have : u.status = .processing := by
    have := (Bool.and_eq_true _ _ |>.mp hp).1
    simpa using this
  exact absurd (hus.symm.trans this) hsr

theorem lockedAt_bumpChildCompleted {db : DB} {tid pid : String}
    {s : Status} (h : lockedAt db tid s) :
    lockedAt (bumpChildCompleted db pid) tid s := by
  refine lockedAt_update_of_guard (by intro u; rfl) ?_ h
  intro u _ _ hus _
  exact hus

theorem onChildCompletedCore_fst (db : DB) (pid : String) :
    (onChildCompletedCore db pid).1 = bumpChildCompleted db pid := by
  unfold onChildCompletedCore
  cases hfp : findTask (bumpChildCompleted db pid) pid with
  | none => rfl
  | some p =>
      by_cases hge : p.child_count ≤ p.child_completed
      · simp [hge]
      · simp [hge]

/-- The first component of `on_child_task_completed` is the table with (at
most) the parent counter bumped. -/
theorem on_child_completed_fst (db : DB) (childTid : String) :
    (on_child_task_completed db childTid).1 = db ∨
    ∃ pid, childParent db childTid = some pid ∧
      (on_child_task_completed db childTid).1 = bumpChildCompleted db pid := by
  unfold on_child_task_completed
  cases hcp : childParent db childTid with
  | none => exact Or.inl rfl
  | some pid =>
      refine Or.inr ⟨pid, rfl, ?_⟩
      show (onChildCompletedCore db pid).1 = bumpChildCompleted db pid
      exact onChildCompletedCore_fst db pid

theorem lockedAt_on_child_completed {db : DB} {tid childTid : String}
    {s : Status} (h : lockedAt db tid s) :
    lockedAt (on_child_task_completed db childTid).1 tid s := by
  rcases on_child_completed_fst db childTid with he | ⟨pid, _, he⟩
  · rw [he]; exact h
  · rw [he]; exact lockedAt_bumpChildCompleted h

theorem lockedAt_on_child_failed {db : DB} {tid childTid err : String}
    {s : Status} {now : Nat} (hsr : s ≠ .processing)
    (h : lockedAt db tid s) :
    lockedAt (on_child_task_failed db childTid err now) tid s := by
  unfold on_child_task_failed
  cases hcp : childParent db childTid with
  | none => exact h
  | some pid =>
      refine lockedAt_update_of_guard (by intro u; rfl) ?_ h
      intro u _ _ hus hpu
      have : u.status = .processing := by
        have := (Bool.and_eq_true _ _ |>.mp hpu).2
        simpa using this
      exact absurd (hus.symm.trans this) hsr

/--
Core preservation lemma: once every row under `tid` sits in a terminal
status (neither pending nor processing), none of the operations the system
issues moves it — provided no operation inserts a fresh row under `tid`
and no parent conversion targets `tid` (`avoidsId`).
-/
theorem lockedAt_applyOp {db : DB} {tid : String} {s : Status}
    (hsp : s ≠ .pending) (hsr : s ≠ .processing)
    {op : Op} (hop : avoidsId tid op) (h : lockedAt db tid s) :
    lockedAt (applyOp db op) tid s := by
  cases op with
  | create tid' fn fp bk prio uid now =>
      have hne : tid' ≠ tid := by
        intro he
        exact hop.1 (by simp [newId, he])
      exact lockedAt_append h (by simpa using hne)
  | claim w now =>
      simp only [applyOp]
      cases selectNextPending db with
      | none => exact h
      | some t => exact lockedAt_casClaim hsp h
  | finishSuccess tid' rp prp now =>
      simp only [applyOp]
      unfold workerFinishSuccess mergeStep
      have h1 := @lockedAt_finishUpdate db tid tid' s .completed (some rp)
        none none now hsr (Or.inl rfl) h
      by_cases hpar : (childParent (update_task_status db tid' .completed
          (some rp) none none now).1 tid').isSome
      · rw [if_pos hpar]
        have h2 := @lockedAt_on_child_completed _ tid tid' s h1
        cases hr : (on_child_task_completed
            (update_task_status db tid' .completed (some rp)
              none none now).1 tid').2 with
        | none => exact h2
        | some pid => exact lockedAt_finishUpdate hsr (Or.inl rfl) h2
      · rw [if_neg hpar]
        exact h1
  | finishFailure tid' err now =>
      simp only [applyOp]
      unfold workerFinishFailure failStep
      have h1 := @lockedAt_finishUpdate db tid tid' s .failed none
        (some err) none now hsr (Or.inr rfl) h
      by_cases hpar : (childParent (update_task_status db tid' .failed none
          (some err) none now).1 tid').isSome
      · rw [if_pos hpar]
        exact lockedAt_on_child_failed hsr h1
      · rw [if_neg hpar]
        exact h1
  | resetStale m now =>
      exact lockedAt_reset_stale hsr h
  | cancel tid' uid all now =>
      simp only [applyOp]
      unfold cancel_task
      cases hft : findTask db tid' with
      | none => exact h
      | some task =>
          by_cases hperm : (!all && !(task.user_id == uid)) = true
          · simpa [hperm] using h
          · by_cases hpend : (task.status == Status.pending) = true
            · simp only [hperm, hpend, Bool.false_eq_true, if_false, if_true]
              -- the cancelled-template update; `tid'` cannot be our locked
              -- id, whose rows are not pending
              refine lockedAt_update_of_guard (by intro u; rfl) ?_ h
              intro u hu huid hus hpu
              have hid' : u.task_id = tid' := by simpa using hpu
              have hps : task.status = .pending := by simpa using hpend
              have htid : task.task_id = tid' := findTask_id hft
              have hts : task.status = s :=
                h task (findTask_mem hft) (htid.trans (hid'.symm.trans huid))
              exact absurd (hts.symm.trans hps) hsp
            · simpa [hperm, hpend] using h
  | convertParent tid' cc =>
      have hne : tid' ≠ tid := by
        intro he
        exact hop.2 (by simp [convertTarget, he])
      simp only [applyOp]
      unfold convert_to_parent_task
      refine lockedAt_update_of_guard (by intro u; rfl) ?_ h
      intro u _ huid _ hpu
      have : u.task_id = tid' := by simpa using hpu
      exact absurd (huid ▸ this : tid = tid').symm hne
  | createChild pid tid' fn fp bk prio uid now =>
      have hne : tid' ≠ tid := by
        intro he
        exact hop.1 (by simp [newId, he])
      simp only [applyOp]
      unfold create_child_task
      refine lockedAt_update_of_guard (by intro u; rfl) ?_
        (lockedAt_append h (by simpa using hne))
      intro u _ _ hus _
      exact hus

theorem lockedAt_applyOps {db : DB} {tid : String} {s : Status}
    (hsp : s ≠ .pending) (hsr : s ≠ .processing)
    {ops : List Op} (hops : ∀ op ∈ ops, avoidsId tid op)
    (h : lockedAt db tid s) : lockedAt (applyOps db ops) tid s := by
  induction ops generalizing db with
  | nil => exact h
  | cons op ops ih =>
      exact ih (fun o ho => hops o (List.mem_cons_of_mem _ ho))
        (lockedAt_applyOp hsp hsr (hops op (List.mem_cons_self _ _)) h)

/-- The embedded dequeue only ever selects pending rows, so it never
returns a row whose id is locked in a non-pending status. -/
theorem select_not_locked {db : DB} {tid : String} {s : Status}
    (h : lockedAt db tid s) (hsp : s ≠ .pending) {t : Task}
    (hsel : selectNextPending db = some t) : t.task_id ≠ tid := by
  intro hid
  have hmem := pickBest_mem _ _ _ hsel
  have hpend : t.status = .pending := by
    have := (List.mem_filter.mp hmem).2
    simpa using this
  have hmd : t ∈ db := (List.mem_filter.mp hmem).1
  exact hsp ((h t hmd hid).symm.trans hpend)

/-! ## Merger (`MinerUWorkerAPI._merge_parent_task_results`) -/

/-- The `chunk_info` options entry carried by every shard. -/
structure ChunkInfo where
  start_page : Nat
  end_page : Nat
deriving DecidableEq, Repr

/-- One entry of the `pages` array of a recognized structured JSON output;
only the (optional) `page_number` key is interpreted by the merger, the
rest of the object is opaque. -/
structure PageEntry where
  page_number : Option Int
  payload : String := ""
deriving DecidableEq, Repr

/-- The merger's view of one child row: its status, its `chunk_info`, the
primary markdown located under its `result_path` (`result.md` preferred),
and the `pages` array of a recognized JSON output when one exists. -/
structure ChildView where
  task_id : String := ""
  status : Status
  chunkInfo : Option ChunkInfo := none
  mdContent : Option String := none
  jsonPages : Option (List PageEntry) := none
deriving DecidableEq, Repr

/-- Sort key of `children.sort(key=... chunk_info.get("start_page", 0))`. -/
def chunkKey (c : ChildView) : Nat :=
  match c.chunkInfo with
  | some ci => ci.start_page
  | none => 0

/-- Stable insertion into a list already sorted by `chunkKey`. -/
def insertByKey (x : ChildView) : List ChildView → List ChildView
  | [] => [x]
  | y :: ys =>
      if chunkKey y < chunkKey x then y :: insertByKey x ys
      else x :: y :: ys

/-- `children.sort(key=...)` — a stable sort by `chunk_info.start_page`. -/
def sortChildren : List ChildView → List ChildView
  | [] => []
  | x :: xs => insertByKey x (sortChildren xs)

/-- The `<!-- Pages s-e -->` delimiter written before each fragment. -/
def pageDelim (ci : ChunkInfo) : String :=
  "\n\n<!-- Pages " ++ toString ci.start_page ++ "-" ++
    toString ci.end_page ++ " -->\n\n"

/-- The contribution of one child to `markdown_parts`: nothing unless the
child is completed and a markdown file was found; otherwise the page-range
delimiter (when `chunk_info` is present) followed by the content. -/
def childMdParts (c : ChildView) : List String :=
  if c.status == .completed then
    match c.mdContent with
    | none => []
    | some md =>
        (match c.chunkInfo with
         | some ci => [pageDelim ci]
         | none => []) ++ [md]
  else []

/-- `chunk_info.get("start_page", 1) - 1`: the page-number offset. -/
def chunkOffset (c : ChildView) : Int :=
  (match c.chunkInfo with
   | some ci => (ci.start_page : Int)
   | none => 1) - 1

/-- `page["page_number"] += page_offset` (when the key is present). -/
def shiftPage (off : Int) (p : PageEntry) : PageEntry :=
  { p with page_number := p.page_number.map (fun n => n + off) }

/-- The contribution of one child to `json_pages`: its `pages` entries
with every `page_number` shifted by `chunk_info.get("start_page", 1) - 1`. -/
def childJsonPages (c : ChildView) : List PageEntry :=
  if c.status == .completed then
    match c.jsonPages with
    | none => []
    | some ps => ps.map (shiftPage (chunkOffset c))
  else []

/-- `has_json`: some completed child produced a recognized JSON with a
`pages` key. -/
def mergeHasJson (cs : List ChildView) : Bool :=
  cs.any (fun c => c.status == .completed && c.jsonPages.isSome)

/-- The merged artifacts: `result.md` text and the optional `result.json`
pages array. -/
structure MergeOutput where
  mergedMd : String
  mergedJson : Option (List PageEntry)
deriving DecidableEq, Repr

/-- The pure content part of `_merge_parent_task_results`: sort the
children, join the markdown fragments, collect the shifted pages; write
`result.json` only when `has_json and json_pages`. -/
def mergeOutputs (children : List ChildView) : MergeOutput :=
  { mergedMd :=
      String.join (List.flatten ((sortChildren children).map childMdParts))
    mergedJson :=
      if mergeHasJson (sortChildren children) &&
          !(List.flatten ((sortChildren children).map childJsonPages)).isEmpty
      then some (List.flatten ((sortChildren children).map childJsonPages))
      else none }

/-- The finalization step of the merger: mark the parent completed with
the parent output directory as `result_path`. -/
def mergeParentFinalize (db : DB) (pid parentDir : String) (now : Nat) :
    DB × Bool :=
  update_task_status db pid .completed (some parentDir) none none now

theorem mem_insertByKey {x z : ChildView} :
    ∀ {l : List ChildView}, z ∈ insertByKey x l → z = x ∨ z ∈ l := by
  intro l
  induction l with
  | nil => intro h; exact Or.inl (List.mem_singleton.mp h)
  | cons y ys ih =>
      intro h
      unfold insertByKey at h
      by_cases hk : chunkKey y < chunkKey x
      · rw [if_pos hk] at h
        rcases List.mem_cons.mp h with rfl | h'
        · exact Or.inr (List.mem_cons_self _ _)
        · rcases ih h' with h'' | h''
          · exact Or.inl h''
          · exact Or.inr (List.mem_cons_of_mem _ h'')
      · rw [if_neg hk] at h
        rcases List.mem_cons.mp h with rfl | h'
        · exact Or.inl rfl
        · exact Or.inr h'

theorem insertByKey_perm (x : ChildView) :
    ∀ (l : List ChildView), (insertByKey x l).Perm (x :: l) := by
  intro l
  induction l with
  | nil => exact List.Perm.refl _
  | cons y ys ih =>
      unfold insertByKey
      by_cases hk : chunkKey y < chunkKey x
      · rw [if_pos hk]
        exact ((ih.cons y).trans (List.Perm.swap x y ys))
      · rw [if_neg hk]

/-- The merger walks a permutation of the child list. -/
theorem sortChildren_perm :
    ∀ (l : List ChildView), (sortChildren l).Perm l := by
  intro l
  induction l with
  | nil => exact List.Perm.refl _
  | cons x xs ih =>
      exact (insertByKey_perm x (sortChildren xs)).trans (ih.cons x)

theorem pairwise_insertByKey {x : ChildView} {l : List ChildView}
    (h : l.Pairwise (fun a b => chunkKey a ≤ chunkKey b)) :
    (insertByKey x l).Pairwise (fun a b => chunkKey a ≤ chunkKey b) := by
  induction l with
  | nil => exact List.pairwise_singleton _ x
  | cons y ys ih =>
      unfold insertByKey
      rcases List.pairwise_cons.mp h with ⟨hy, hys⟩
      by_cases hk : chunkKey y < chunkKey x
      · rw [if_pos hk]
        refine List.pairwise_cons.mpr ⟨?_, ih hys⟩
        intro z hz
        rcases mem_insertByKey hz with rfl | hz'
        · exact Nat.le_of_lt hk
        · exact hy z hz'
      · rw [if_neg hk]
        refine List.pairwise_cons.mpr ⟨?_, h⟩
        intro z hz
        rcases List.mem_cons.mp hz with rfl | hz'
        · exact Nat.le_of_not_lt hk
        · exact Nat.le_trans (Nat.le_of_not_lt hk) (hy z hz')

/-- The merger processes the children in ascending `start_page` order. -/
theorem sortChildren_sorted (l : List ChildView) :
    (sortChildren l).Pairwise (fun a b => chunkKey a ≤ chunkKey b) := by
  induction l with
  | nil => exact List.Pairwise.nil
  | cons x xs ih => exact pairwise_insertByKey ih

/-! ## Output normalizer URL rewriting
(`BaseOutputNormalizer._replace_markdown_urls` / `_replace_json_urls`)

Markdown content is viewed as a list of segments: plain text, a Markdown
image reference `![alt](path)`, or an HTML `<img ...src="src"...>` tag.
The two regex patterns of `_replace_markdown_urls` act on exactly these
shapes and only when the path equals `images/<filename>`.
-/

inductive MdSeg where
  | text (s : String)
  | mdImage (alt path : String)
  | htmlImg (pre src post : String)
deriving DecidableEq, Repr

/-- `images/<filename>`: the only path shape the rewrite patterns match. -/
def imagesRef (filename : String) : String := "images/" ++ filename

/-- Pattern 1: `![alt](images/f)` becomes `<img src="url" alt="alt">`
(empty alt text falls back to the filename). -/
def rewriteMdImage (f url : String) (seg : MdSeg) : MdSeg :=
  match seg with
  | .mdImage alt path =>
      if path == imagesRef f then
        .htmlImg " " url
          (" alt=\"" ++ (if alt == "" then f else alt) ++ "\"")
      else .mdImage alt path
  | s => s

/-- Pattern 2: `<img ...src="images/f"...>` has its `src` replaced. -/
def rewriteHtmlImg (f url : String) (seg : MdSeg) : MdSeg :=
  match seg with
  | .htmlImg pre src post =>
      if src == imagesRef f then .htmlImg pre url post
      else .htmlImg pre src post
  | s => s

/-- One iteration of the `for filename, url in url_mapping.items()` loop:
pattern 1 over the whole content, then pattern 2. -/
def entryStep (e : String × String) (seg : MdSeg) : MdSeg :=
  rewriteHtmlImg e.1 e.2 (rewriteMdImage e.1 e.2 seg)

/-- `_replace_markdown_urls(md_file, url_mapping)` on the segment view. -/
def replace_markdown_urls (mapping : List (String × String))
    (content : List MdSeg) : List MdSeg :=
  mapping.foldl (fun c e => c.map (entryStep e)) content

/-- JSON documents as the normalizer sees them. -/
inductive Json where
  | str (s : String)
  | num (n : Int)
  | arr (elems : List Json)
  | obj (fields : List (String × Json))
deriving Repr

/-- `needle` is a prefix of `hay` (on character lists). -/
def startsWithList : List Char → List Char → Bool
  | _, [] => true
  | [], _ :: _ => false
  | h :: hs, n :: ns => h == n && startsWithList hs ns

/-- `needle` occurs somewhere in `hay` (on character lists). -/
def containsList (hay needle : List Char) : Bool :=
  match hay with
  | [] => needle.isEmpty
  | _ :: rest => startsWithList hay needle || containsList rest needle

/-- Python's `needle in hay` substring test. -/
def strContains (hay needle : String) : Bool :=
  containsList hay.data needle.data

/-- The inner loop of `replace_paths`: the first mapping entry whose
filename occurs in the value, provided the value also mentions the
`images` directory segment. -/
def firstUrlMatch (mapping : List (String × String)) (v : String) :
    Option String :=
  mapping.findSome? (fun e =>
    if strContains v e.1 && strContains v "images" then some e.2 else none)

/-- String values sitting directly under a dict key are replaced; other
values are recursed into (`_replace_json_urls.replace_paths`). -/
def replaceStr (mapping : List (String × String)) (s : String) : String :=
  match firstUrlMatch mapping s with
  | some u => u
  | none => s

mutual

def replacePaths (mapping : List (String × String)) : Json → Json
  | .str s => .str s
  | .num n => .num n
  | .arr elems => .arr (replacePathsArr mapping elems)
  | .obj fields => .obj (replacePathsObj mapping fields)

/-- A dict value: `isinstance(value, str)` gets the substring replacement,
anything else is recursed into. -/
def replaceVal (mapping : List (String × String)) : Json → Json
  | .str s => .str (replaceStr mapping s)
  | .num n => replacePaths mapping (.num n)
  | .arr elems => replacePaths mapping (.arr elems)
  | .obj fields => replacePaths mapping (.obj fields)

def replacePathsObj (mapping : List (String × String)) :
    List (String × Json) → List (String × Json)
  | [] => []
  | (k, v) :: rest => (k, replaceVal mapping v) :: replacePathsObj mapping rest

def replacePathsArr (mapping : List (String × String)) :
    List Json → List Json
  | [] => []
  | v :: rest => replacePaths mapping v :: replacePathsArr mapping rest

end

/-- No URL of the mapping has the `images/<mapped filename>` shape (the
uploaded URLs are `http(s)://...`, which the markdown patterns never
match). -/
def goodMapping (mapping : List (String × String)) : Prop :=
  ∀ e ∈ mapping, ∀ g ∈ mapping, e.2 ≠ imagesRef g.1

theorem entryStep_text (e : String × String) (s : String) :
    entryStep e (.text s) = .text s := rfl

theorem entryStep_of_notref (e : String × String) {pre src post : String}
    (h : ¬src = imagesRef e.1) :
    entryStep e (.htmlImg pre src post) = .htmlImg pre src post := by
  simp [entryStep, rewriteMdImage, rewriteHtmlImg, h]

/-- One mapping entry either leaves a segment alone or turns it into an
HTML tag whose `src` is that entry's URL. -/
theorem entryStep_cases (e : String × String) (seg : MdSeg) :
    entryStep e seg = seg ∨
    ∃ pre post, entryStep e seg = .htmlImg pre e.2 post := by
  cases seg with
  | text s => exact Or.inl rfl
  | mdImage alt path =>
      by_cases hp : (path == imagesRef e.1) = true
      · refine Or.inr ⟨" ", " alt=\"" ++ (if alt == "" then e.1 else alt)
          ++ "\"", ?_⟩
        by_cases hu : (e.2 == imagesRef e.1) = true
        · simp [entryStep, rewriteMdImage, rewriteHtmlImg, hp, hu]
        · simp [entryStep, rewriteMdImage, rewriteHtmlImg, hp, hu]
      · exact Or.inl (by simp [entryStep, rewriteMdImage, rewriteHtmlImg, hp])
  | htmlImg pre src post =>
      by_cases hs : (src == imagesRef e.1) = true
      · exact Or.inr ⟨pre, post,
          by simp [entryStep, rewriteMdImage, rewriteHtmlImg, hs]⟩
      · exact Or.inl (by simp [entryStep, rewriteMdImage, rewriteHtmlImg, hs])

/-- A segment no mapping entry rewrites. -/
def cleanSeg (mapping : List (String × String)) (seg : MdSeg) : Prop :=
  ∀ e ∈ mapping, entryStep e seg = seg

theorem foldl_of_cleanSeg {mapping : List (String × String)} {seg : MdSeg}
    (h : cleanSeg mapping seg) :
    mapping.foldl (fun s e => entryStep e s) seg = seg := by
  induction mapping with
  | nil => rfl
  | cons e es ih =>
      rw [List.foldl_cons, h e (List.mem_cons_self _ _)]
      exact ih (fun g hg => h g (List.mem_cons_of_mem _ hg))

theorem foldl_cleanSeg (full : List (String × String))
    (hgood : goodMapping full) :
    ∀ (rem : List (String × String)), (∀ e ∈ rem, e ∈ full) →
    ∀ (seg : MdSeg), (∀ e ∈ full, e ∈ rem ∨ entryStep e seg = seg) →
    cleanSeg full (rem.foldl (fun s e => entryStep e s) seg) := by
  intro rem
  induction rem with
  | nil =>
      intro _ seg hstart e he
      rcases hstart e he with h' | h'
      · exact absurd h' (List.not_mem_nil e)
      · exact h'
  | cons e rem ih =>
      intro hsub seg hstart
      rw [List.foldl_cons]
      refine ih (fun g hg => hsub g (List.mem_cons_of_mem _ hg))
        (entryStep e seg) ?_
      intro g hg
      have hefull : e ∈ full := hsub e (List.mem_cons_self _ _)
      rcases hstart g hg with hmem | hfix
      · rcases List.mem_cons.mp hmem with rfl | hmem'
        · -- `g = e`: applying the same entry twice is a no-op.
          refine Or.inr ?_
          rcases entryStep_cases g seg with hseg | ⟨pre, post, hseg⟩
          · rw [hseg]
            exact hseg
          · rw [hseg]
            exact entryStep_of_notref g (hgood g hefull g hefull)
        · exact Or.inl hmem'
      · refine Or.inr ?_
        rcases entryStep_cases e seg with hseg | ⟨pre, post, hseg⟩
        · rw [hseg, hfix]
        · rw [hseg]
          exact entryStep_of_notref g (hgood e hefull g hg)

theorem replace_markdown_urls_eq_map
    (mapping : List (String × String)) (content : List MdSeg) :
    replace_markdown_urls mapping content =
      content.map (fun seg => mapping.foldl (fun s e => entryStep e s) seg) := by
  unfold replace_markdown_urls
  induction mapping generalizing content with
  | nil => simp
  | cons e es ih =>
      rw [List.foldl_cons, ih, List.map_map]
      rfl

/-- The markdown rewrite is idempotent (given HTTP-shaped URLs). -/
theorem replace_markdown_urls_idem (mapping : List (String × String))
    (hgood : goodMapping mapping) (content : List MdSeg) :
    replace_markdown_urls mapping (replace_markdown_urls mapping content) =
      replace_markdown_urls mapping content := by
  simp only [replace_markdown_urls_eq_map, List.map_map]
  refine List.map_congr_left ?_
  intro seg _
  show (mapping.foldl (fun s e => entryStep e s)
    (mapping.foldl (fun s e => entryStep e s) seg)) = _
  exact foldl_of_cleanSeg
    (foldl_cleanSeg mapping hgood mapping (fun _ h => h) seg
      (fun e he => Or.inl he))

/-- No URL of the mapping is itself re-matched by the JSON substring
heuristic (uploaded URLs carry a date prefix, not an `images/` segment
together with a mapped filename). -/
def goodJsonMapping (mapping : List (String × String)) : Prop :=
  ∀ e ∈ mapping, firstUrlMatch mapping e.2 = none

theorem firstUrlMatch_mem {mapping : List (String × String)} {v u : String}
    (h : firstUrlMatch mapping v = some u) : ∃ e ∈ mapping, u = e.2 := by
  unfold firstUrlMatch at h
  induction mapping with
  | nil => simp [List.findSome?] at h
  | cons e es ih =>
      rw [List.findSome?_cons] at h
      by_cases hc : (strContains v e.1 && strContains v "images") = true
      · rw [if_pos hc] at h
        exact ⟨e, List.mem_cons_self _ _, (Option.some.injEq _ _ |>.mp h).symm⟩
      · rw [if_neg hc] at h
        rcases ih h with ⟨g, hg, hgu⟩
        exact ⟨g, List.mem_cons_of_mem _ hg, hgu⟩

theorem replaceStr_idem {mapping : List (String × String)}
    (hgood : goodJsonMapping mapping) (s : String) :
    replaceStr mapping (replaceStr mapping s) = replaceStr mapping s := by
  unfold replaceStr
  cases h : firstUrlMatch mapping s with
  | none => rw [h]
  | some u =>
      rcases firstUrlMatch_mem h with ⟨e, he, rfl⟩
      rw [hgood e he]

mutual

theorem replacePaths_idem (mapping : List (String × String))
    (hgood : goodJsonMapping mapping) :
    ∀ j, replacePaths mapping (replacePaths mapping j) =
      replacePaths mapping j
  | .str _ => by simp only [replacePaths]
  | .num _ => by simp only [replacePaths]
  | .arr elems => by
      simp only [replacePaths]
      rw [replacePathsArr_idem mapping hgood elems]
  | .obj fields => by
      simp only [replacePaths]
      rw [replacePathsObj_idem mapping hgood fields]

theorem replaceVal_idem (mapping : List (String × String))
    (hgood : goodJsonMapping mapping) :
    ∀ v, replaceVal mapping (replaceVal mapping v) = replaceVal mapping v
  | .str s => by
      simp only [replaceVal]
      rw [replaceStr_idem hgood]
  | .num _ => by simp only [replaceVal, replacePaths]
  | .arr elems => by
      simp only [replaceVal, replacePaths]
      rw [replacePathsArr_idem mapping hgood elems]
  | .obj fields => by
      simp only [replaceVal, replacePaths]
      rw [replacePathsObj_idem mapping hgood fields]

theorem replacePathsObj_idem (mapping : List (String × String))
    (hgood : goodJsonMapping mapping) :
    ∀ kvs, replacePathsObj mapping (replacePathsObj mapping kvs) =
      replacePathsObj mapping kvs
  | [] => by simp only [replacePathsObj]
  | (k, v) :: rest => by
      simp only [replacePathsObj]
      rw [replaceVal_idem mapping hgood v,
        replacePathsObj_idem mapping hgood rest]

theorem replacePathsArr_idem (mapping : List (String × String))
    (hgood : goodJsonMapping mapping) :
    ∀ elems, replacePathsArr mapping (replacePathsArr mapping elems) =
      replacePathsArr mapping elems
  | [] => by simp only [replacePathsArr]
  | v :: rest => by
      simp only [replacePathsArr]
      rw [replacePaths_idem mapping hgood v,
        replacePathsArr_idem mapping hgood rest]

end

/-! ## Characterizations of the individual store operations -/

theorem unique_find_mem {db : DB} {tid : String} {t : Task}
    (hu : uniqueKeys db) (hf : findTask db tid = some t) :
    ∀ u ∈ db, u.task_id = tid → u = t := by
  intro u hmem hid
  exact List.inj_on_of_nodup_map hu hmem (findTask_mem hf)
    (hid.trans (findTask_id hf).symm)

theorem casClaim_ok_iff {db : DB} {tid w : String} {now : Nat} :
    (casClaim db tid w now).2 = true ↔
      ∃ t ∈ db, t.task_id = tid ∧ t.status = .pending := by
  unfold casClaim
  rw [List.any_eq_true]
  constructor
  · rintro ⟨t, ht, hp⟩
    rcases Bool.and_eq_true _ _ |>.mp hp with ⟨h1, h2⟩
    exact ⟨t, ht, by simpa using h1, by simpa using h2⟩
  · rintro ⟨t, ht, h1, h2⟩
    exact ⟨t, ht, by simp [h1, h2]⟩

theorem casClaim_fail {db : DB} {tid w : String} {now : Nat}
    (h : (casClaim db tid w now).2 = false) :
    (casClaim db tid w now).1 = db := by
  apply updateRows_eq_self
  have h' : db.any (fun t => t.task_id == tid && t.status == .pending)
      = false := h
  exact fun t ht => Bool.eq_false_iff.mpr (List.any_eq_false.mp h' t ht)

theorem casClaim_success_row {db : DB} {tid w : String} {now : Nat}
    (hu : uniqueKeys db) (h : (casClaim db tid w now).2 = true) :
    ∃ t, findTask db tid = some t ∧ t.status = .pending ∧
      findTask (casClaim db tid w now).1 tid =
        some { t with status := .processing
                      started_at := some now
                      worker_id := some w } := by
  rcases @unique_any db tid (fun t => t.status == .pending) hu
      (by simpa [casClaim] using h) with ⟨t, hft, hq⟩
  refine ⟨t, hft, by simpa using hq, ?_⟩
  have := findTask_updateRows db
    (fun t => t.task_id == tid && t.status == .pending)
    (fun t => { t with status := .processing
                       started_at := some now
                       worker_id := some w }) tid (by intro u; rfl)
  unfold casClaim
  rw [this, hft]
  have hid : t.task_id = tid := findTask_id hft
  have hp : t.status = .pending := by simpa using hq
  simp [hid, hp]

theorem claimOnce_claimed_inv {r rw : DB} {w : String} {now : Nat}
    {t : Task} {db' : DB}
    (h : claimOnce r rw w now = .claimed t db') :
    selectNextPending r = some t ∧
    (casClaim rw t.task_id w now).2 = true ∧
    db' = (casClaim rw t.task_id w now).1 := by
  unfold claimOnce at h
  cases hs : selectNextPending r with
  | none => rw [hs] at h; exact ClaimOutcome.noConfusion h
  | some u =>
      rw [hs] at h
      replace h :
          (if (casClaim rw u.task_id w now).2 = true then
            ClaimOutcome.claimed u (casClaim rw u.task_id w now).1
          else ClaimOutcome.contended (casClaim rw u.task_id w now).1) =
            ClaimOutcome.claimed t db' := h
      by_cases hok : (casClaim rw u.task_id w now).2 = true
      · rw [if_pos hok] at h
        rcases ClaimOutcome.claimed.injEq _ _ _ _ |>.mp h.symm with ⟨h1, h2⟩
        subst h1
        exact ⟨rfl, hok, h2⟩
      · rw [if_neg hok] at h
        exact ClaimOutcome.noConfusion h

theorem claimOnce_contended_inv {r rw : DB} {w : String} {now : Nat}
    {db' : DB} (h : claimOnce r rw w now = .contended db') :
    ∃ t, selectNextPending r = some t ∧
      (casClaim rw t.task_id w now).2 = false := by
  unfold claimOnce at h
  cases hs : selectNextPending r with
  | none => rw [hs] at h; exact ClaimOutcome.noConfusion h
  | some u =>
      rw [hs] at h
      replace h :
          (if (casClaim rw u.task_id w now).2 = true then
            ClaimOutcome.claimed u (casClaim rw u.task_id w now).1
          else ClaimOutcome.contended (casClaim rw u.task_id w now).1) =
            ClaimOutcome.contended db' := h
      by_cases hok : (casClaim rw u.task_id w now).2 = true
      · rw [if_pos hok] at h
        exact ClaimOutcome.noConfusion h
      · rw [if_neg hok] at h
        exact ⟨u, rfl, Bool.eq_false_iff.mpr hok⟩

/-- The 3-attempt loop returns `none` when every attempt hits contention. -/
theorem get_next_task_contended {reads writes : Nat → DB} {w : String}
    {now : Nat}
    (h : ∀ i, i < 3 → ∃ after,
      claimOnce (reads i) (writes i) w now = .contended after) :
    get_next_task reads writes w now = none := by
  rcases h 0 (by norm_num) with ⟨a0, h0⟩
  rcases h 1 (by norm_num) with ⟨a1, h1⟩
  rcases h 2 (by norm_num) with ⟨a2, h2⟩
  unfold get_next_task claimLoop
  rw [h0]
  unfold claimLoop
  rw [h1]
  unfold claimLoop
  rw [h2]
  rfl

/-- A returned row always comes out of a successful CAS at one of the (at
most 3) attempts. -/
theorem get_next_task_success_inv {reads writes : Nat → DB} {w : String}
    {now : Nat} {t : Task} {db' : DB}
    (h : get_next_task reads writes w now = some (t, db')) :
    ∃ i, i < 3 ∧ claimOnce (reads i) (writes i) w now = .claimed t db' := by
  unfold get_next_task claimLoop at h
  cases h0 : claimOnce (reads 0) (writes 0) w now with
  | empty => rw [h0] at h; exact Option.noConfusion h
  | claimed t0 a0 =>
      rw [h0] at h
      rcases Prod.mk.injEq _ _ _ _ |>.mp (Option.some.injEq _ _ |>.mp h) with
        ⟨rfl, rfl⟩
      exact ⟨0, by norm_num, h0⟩
  | contended a0 =>
      rw [h0] at h
      unfold claimLoop at h
      cases h1 : claimOnce (reads 1) (writes 1) w now with
      | empty => rw [h1] at h; exact Option.noConfusion h
      | claimed t1 a1 =>
          rw [h1] at h
          rcases Prod.mk.injEq _ _ _ _ |>.mp (Option.some.injEq _ _ |>.mp h)
            with ⟨rfl, rfl⟩
          exact ⟨1, by norm_num, h1⟩
      | contended a1 =>
          rw [h1] at h
          unfold claimLoop at h
          cases h2 : claimOnce (reads 2) (writes 2) w now with
          | empty => rw [h2] at h; exact Option.noConfusion h
          | claimed t2 a2 =>
              rw [h2] at h
              rcases Prod.mk.injEq _ _ _ _ |>.mp
                (Option.some.injEq _ _ |>.mp h) with ⟨rfl, rfl⟩
              exact ⟨2, by norm_num, h2⟩
          | contended a2 =>
              rw [h2] at h
              unfold claimLoop at h
              exact Option.noConfusion h

/-- The success flag of a completed/failed template is `any finishGuard`. -/
theorem finish_flag {db : DB} {tid : String} {st : Status}
    {rp em : Option String} {worker : Option String} {now : Nat}
    (hst : st = .completed ∨ st = .failed) :
    (update_task_status db tid st rp em worker now).2 =
      db.any (finishGuard tid worker) := by
  rcases hst with rfl | rfl <;> rfl

theorem finishGuard_iff {tid : String} {worker : Option String} {t : Task} :
    finishGuard tid worker t = true ↔
      t.task_id = tid ∧ t.status = .processing ∧
        (∀ w, worker = some w → t.worker_id = some w) := by
  unfold finishGuard
  cases worker with
  | none => simp
  | some w => simp [and_assoc]

/-- A successful finalize found a processing row under the id (matching
the worker when one was supplied). -/
theorem finish_success_sound {db : DB} {tid : String} {st : Status}
    {rp em : Option String} {worker : Option String} {now : Nat}
    (hst : st = .completed ∨ st = .failed)
    (h : (update_task_status db tid st rp em worker now).2 = true) :
    ∃ t ∈ db, t.task_id = tid ∧ t.status = .processing ∧
      (∀ w, worker = some w → t.worker_id = some w) := by
  rw [finish_flag hst] at h
  rcases List.any_eq_true.mp h with ⟨t, ht, hg⟩
  exact ⟨t, ht, finishGuard_iff.mp hg⟩

/-- A failed finalize leaves the table unchanged. -/
theorem finish_fail_unchanged {db : DB} {tid : String} {st : Status}
    {rp em : Option String} {worker : Option String} {now : Nat}
    (hst : st = .completed ∨ st = .failed)
    (h : (update_task_status db tid st rp em worker now).2 = false) :
    (update_task_status db tid st rp em worker now).1 = db := by
  rw [finish_flag hst] at h
  have hall := List.any_eq_false.mp h
  rcases hst with rfl | rfl <;>
    exact updateRows_eq_self
      (fun t ht => Bool.eq_false_iff.mpr (hall t ht))

/-- If no row under the id is processing (already moved: cancelled, reset
to pending, or done), finalize reports failure and changes nothing. -/
theorem finish_already_moved {db : DB} {tid : String} {st : Status}
    {rp em : Option String} {worker : Option String} {now : Nat}
    (hst : st = .completed ∨ st = .failed)
    (h : ∀ t ∈ db, t.task_id = tid → t.status ≠ .processing) :
    (update_task_status db tid st rp em worker now).2 = false ∧
    (update_task_status db tid st rp em worker now).1 = db := by
  have hflag : (update_task_status db tid st rp em worker now).2 = false := by
    rw [finish_flag hst]
    rw [List.any_eq_false]
    intro t ht
    intro hg
    rcases finishGuard_iff.mp hg with ⟨hid, hpr, _⟩
    exact h t ht hid hpr
  exact ⟨hflag, finish_fail_unchanged hst hflag⟩

/-- Successful finalize to completed: the row gets `completed_at` and
`result_path`, everything else (including `worker_id`) is kept. -/
theorem finish_completed_row {db : DB} {tid : String}
    {rp em : Option String} {worker : Option String} {now : Nat}
    (hu : uniqueKeys db)
    (h : (update_task_status db tid .completed rp em worker now).2 = true) :
    ∃ t, findTask db tid = some t ∧ t.status = .processing ∧
      findTask (update_task_status db tid .completed rp em worker now).1 tid
        = some { t with status := .completed
                        completed_at := some now
                        result_path := rp } := by
  have h' : db.any (fun t => t.task_id == tid &&
      (t.status == Status.processing &&
        (match worker with
         | some w => t.worker_id == some w
         | none => true))) = true := by
    rw [List.any_eq_true]
    rcases List.any_eq_true.mp h with ⟨t, ht, hg⟩
    rcases finishGuard_iff.mp hg with ⟨h1, h2, h3⟩
    refine ⟨t, ht, ?_⟩
    cases worker with
    | none => simp [h1, h2]
    | some w => simp [h1, h2, h3 w rfl]
  rcases unique_any hu h' with ⟨t, hft, hq⟩
  have hpr : t.status = .processing := by
    rcases Bool.and_eq_true _ _ |>.mp hq with ⟨h2, _⟩
    simpa using h2
  refine ⟨t, hft, hpr, ?_⟩
  have heq := findTask_updateRows db (finishGuard tid worker)
    (fun t => { t with status := .completed
                       completed_at := some now
                       result_path := rp }) tid (by intro u; rfl)
  show findTask (updateRows db (finishGuard tid worker) _) tid = _
  rw [heq, hft]
  have hg : finishGuard tid worker t = true := by
    refine finishGuard_iff.mpr ⟨findTask_id hft, hpr, ?_⟩
    intro w hw
    subst hw
    rcases Bool.and_eq_true _ _ |>.mp hq with ⟨_, h3⟩
    simpa using h3
  simp [hg]

/-- Successful finalize to failed: the row gets `completed_at` and
`error_message`, everything else (including `worker_id`) is kept. -/
theorem finish_failed_row {db : DB} {tid : String}
    {rp em : Option String} {worker : Option String} {now : Nat}
    (hu : uniqueKeys db)
    (h : (update_task_status db tid .failed rp em worker now).2 = true) :
    ∃ t, findTask db tid = some t ∧ t.status = .processing ∧
      findTask (update_task_status db tid .failed rp em worker now).1 tid
        = some { t with status := .failed
                        completed_at := some now
                        error_message := em } := by
  have h' : db.any (fun t => t.task_id == tid &&
      (t.status == Status.processing &&
        (match worker with
         | some w => t.worker_id == some w
         | none => true))) = true := by
    rw [List.any_eq_true]
    rcases List.any_eq_true.mp h with ⟨t, ht, hg⟩
    rcases finishGuard_iff.mp hg with ⟨h1, h2, h3⟩
    refine ⟨t, ht, ?_⟩
    cases worker with
    | none => simp [h1, h2]
    | some w => simp [h1, h2, h3 w rfl]
  rcases unique_any hu h' with ⟨t, hft, hq⟩
  have hpr : t.status = .processing := by
    rcases Bool.and_eq_true _ _ |>.mp hq with ⟨h2, _⟩
    simpa using h2
  refine ⟨t, hft, hpr, ?_⟩
  have heq := findTask_updateRows db (finishGuard tid worker)
    (fun t => { t with status := .failed
                       completed_at := some now
                       error_message := em }) tid (by intro u; rfl)
  show findTask (updateRows db (finishGuard tid worker) _) tid = _
  rw [heq, hft]
  have hg : finishGuard tid worker t = true := by
    refine finishGuard_iff.mpr ⟨findTask_id hft, hpr, ?_⟩
    intro w hw
    subst hw
    rcases Bool.and_eq_true _ _ |>.mp hq with ⟨_, h3⟩
    simpa using h3
  simp [hg]

theorem updateRows_length (db : DB) (p : Task → Bool) (f : Task → Task) :
    (updateRows db p f).length = db.length := by
  unfold updateRows
  exact List.length_map _ _

/-- Row-by-row effect of `reset_stale_tasks`: timed-out processing rows go
back to pending with `worker_id` nulled and `retry_count + 1`; every other
row is untouched. -/
theorem reset_stale_row (db : DB) (m now : Nat) (i : Nat)
    (h : i < db.length) :
    (reset_stale_tasks db m now).1.get
        ⟨i, by rw [show (reset_stale_tasks db m now).1 =
            updateRows db (staleGuard m now) _ from rfl,
          updateRows_length]; exact h⟩ =
      (if staleGuard m now (db.get ⟨i, h⟩) then
        { db.get ⟨i, h⟩ with
            status := .pending
            worker_id := none
            retry_count := (db.get ⟨i, h⟩).retry_count + 1 }
       else db.get ⟨i, h⟩) := by
  show (updateRows db (staleGuard m now) _).get _ = _
  unfold updateRows
  rw [List.get_map]

/-- The sweep's return value counts exactly the reset rows. -/
theorem reset_stale_count (db : DB) (m now : Nat) :
    (reset_stale_tasks db m now).2 =
      (db.filter (staleGuard m now)).length := rfl

/-- A reset row is reclaimable: the pending→processing CAS on its id
succeeds against the post-sweep table. -/
theorem reset_stale_reclaimable {db : DB} {m now : Nat} {t : Task}
    (ht : t ∈ db) (hst : staleGuard m now t = true) (w : String)
    (now' : Nat) :
    (casClaim (reset_stale_tasks db m now).1 t.task_id w now').2 = true := by
  apply casClaim_ok_iff.mpr
  refine ⟨{ t with
      status := .pending
      worker_id := none
      retry_count := t.retry_count + 1 }, ?_, rfl, rfl⟩
  show _ ∈ updateRows db (staleGuard m now) _
  unfold updateRows
  exact List.mem_map.mpr ⟨t, ht, by simp [hst]⟩

/-- `CREATE`d rows: pending, no worker, the priority and owner as given. -/
theorem insertTaskRow_new {db : DB} {tid fn fp bk : String} {prio : Int}
    {uid : Option String} {now : Nat}
    (hfresh : findTask db tid = none) :
    findTask (insertTaskRow db tid fn fp bk prio uid now) tid =
      some { task_id := tid
             file_name := fn
             file_path := some fp
             backend := bk
             priority := prio
             user_id := uid
             created_at := now
             status := .pending } := by
  unfold insertTaskRow
  rw [findTask_append_right hfresh]
  simp

/-- Bumping one parent's `child_completed`: the parent row gains exactly
one, any row under a different id is untouched. -/
theorem bumpChildCompleted_row {db : DB} {pid : String} {t : Task}
    (hft : findTask db pid = some t) :
    findTask (bumpChildCompleted db pid) pid =
      some { t with child_completed := t.child_completed + 1 } := by
  unfold bumpChildCompleted
  rw [findTask_updateRows _ _ _ _ (by intro u; rfl), hft]
  simp [findTask_id hft]

theorem bumpChildCompleted_other {db : DB} {pid tid : String}
    (hne : tid ≠ pid) :
    findTask (bumpChildCompleted db pid) tid = findTask db tid := by
  unfold bumpChildCompleted
  rw [findTask_updateRows _ _ _ _ (by intro u; rfl)]
  cases hft : findTask db tid with
  | none => rfl
  | some t =>
      have hf : (t.task_id == pid) = false :=
        Bool.eq_false_iff.mpr (by simpa [findTask_id hft] using hne)
      show some (if (t.task_id == pid) = true then _ else t) = some t
      rw [if_neg (by simp [hf])]

/-- `on_child_task_completed` adds exactly one to the parent counter (when
the child exists and has a parent) and returns the parent id iff the new
counter has reached `child_count`; `child_count` itself never changes. -/
theorem on_child_completed_spec {db : DB} {childTid pid : String}
    (hcp : childParent db childTid = some pid) {p : Task}
    (hfp : findTask db pid = some p) :
    findTask (on_child_task_completed db childTid).1 pid =
      some { p with child_completed := p.child_completed + 1 } ∧
    ((on_child_task_completed db childTid).2 = some pid ↔
      p.child_count ≤ p.child_completed + 1) := by
  have hbump := bumpChildCompleted_row hfp
  have h1 : on_child_task_completed db childTid =
      onChildCompletedCore db pid := by
    unfold on_child_task_completed
    rw [hcp]
  rw [h1]
  unfold onChildCompletedCore
  rw [hbump]
  by_cases hge : p.child_count ≤ p.child_completed + 1
  · constructor
    · simp only [show ({ p with child_completed := p.child_completed + 1 }
          : Task).child_count = p.child_count from rfl]
      rw [if_pos hge]
      exact hbump
    · simp only [show ({ p with child_completed := p.child_completed + 1 }
          : Task).child_count = p.child_count from rfl]
      rw [if_pos hge]
      simp [hge]
  · constructor
    · simp only [show ({ p with child_completed := p.child_completed + 1 }
          : Task).child_count = p.child_count from rfl]
      rw [if_neg hge]
      exact hbump
    · simp only [show ({ p with child_completed := p.child_completed + 1 }
          : Task).child_count = p.child_count from rfl]
      rw [if_neg hge]
      simp [hge]

/-- `on_child_task_failed` on a parent that is no longer processing (with
a unique key) changes nothing. -/
theorem on_child_failed_not_processing {db : DB} {childTid err : String}
    {now : Nat} {pid : String} (hu : uniqueKeys db)
    (hcp : childParent db childTid = some pid) {p : Task}
    (hfp : findTask db pid = some p) (hnp : p.status ≠ .processing) :
    on_child_task_failed db childTid err now = db := by
  unfold on_child_task_failed
  rw [hcp]
  apply updateRows_eq_self
  intro t ht
  rw [Bool.eq_false_iff]
  intro hg
  rcases Bool.and_eq_true _ _ |>.mp hg with ⟨h1, h2⟩
  have hid : t.task_id = pid := by simpa using h1
  have : t = p := unique_find_mem hu hfp t ht hid
  subst this
  exact hnp (by simpa using h2)

/-- `on_child_task_failed` on a still-processing parent marks it failed
with an error message naming the failing child. -/
theorem on_child_failed_processing {db : DB} {childTid err : String}
    {now : Nat} {pid : String}
    (hcp : childParent db childTid = some pid) {p : Task}
    (hfp : findTask db pid = some p) (hpr : p.status = .processing) :
    findTask (on_child_task_failed db childTid err now) pid =
      some { p with status := .failed
                    completed_at := some now
                    error_message :=
                      some ("Subtask " ++ childTid ++ " failed: " ++ err) } := by
  unfold on_child_task_failed
  rw [hcp]
  rw [findTask_updateRows _ _ _ _ (by intro u; rfl), hfp]
  simp [findTask_id hfp, hpr]

/-- Worker-side sequence of completion callbacks hitting the store. -/
def foldCallbacks (db : DB) (calls : List String) : DB :=
  calls.foldl (fun d c => (on_child_task_completed d c).1) db

/-- Across any run of completion callbacks, a parent row survives, its
`child_count` is never written, and `child_completed` grows by at most one
per callback. -/
theorem foldCallbacks_bound {pid : String} :
    ∀ (calls : List String) (db : DB) (p : Task),
      findTask db pid = some p →
      ∃ p', findTask (foldCallbacks db calls) pid = some p' ∧
        p'.child_count = p.child_count ∧
        p'.child_completed ≤ p.child_completed + calls.length := by
  intro calls
  induction calls with
  | nil => intro db p hfp; exact ⟨p, hfp, rfl, Nat.le_refl _⟩
  | cons c cs ih =>
      intro db p hfp
      have hstep : ∃ q, findTask (on_child_task_completed db c).1 pid
          = some q ∧ q.child_count = p.child_count ∧
          q.child_completed ≤ p.child_completed + 1 := by
        rcases on_child_completed_fst db c with he | ⟨pid', hcp', he⟩
        · exact ⟨p, by rw [he]; exact hfp, rfl, Nat.le_succ _⟩
        · rw [he]
          by_cases hpp : pid = pid'
          · subst hpp
            exact ⟨_, bumpChildCompleted_row hfp, rfl, Nat.le_refl _⟩
          · rw [bumpChildCompleted_other hpp]
            exact ⟨p, hfp, rfl, Nat.le_succ _⟩
      rcases hstep with ⟨q, hq, hqc, hqle⟩
      rcases ih _ q hq with ⟨p', hp', hc', hle'⟩
      refine ⟨p', hp', hc'.trans hqc, ?_⟩
      calc p'.child_completed ≤ q.child_completed + cs.length := hle'
        _ ≤ (p.child_completed + 1) + cs.length :=
            Nat.add_le_add_right hqle _
        _ = p.child_completed + (c :: cs).length := by
            simp [List.length_cons]
            ring

/-- `convert_to_parent_task` on the row itself. -/
theorem convert_to_parent_row {db : DB} {tid : String} {cc : Nat} {t : Task}
    (hft : findTask db tid = some t) :
    findTask (convert_to_parent_task db tid cc) tid =
      some { t with is_parent := true, child_count := cc,
                    status := .processing } := by
  unfold convert_to_parent_task
  rw [findTask_updateRows _ _ _ _ (by intro u; rfl), hft]
  simp [findTask_id hft]

/-! ## Redis score ordering -/

theorem redisScore_priority_order {pA pB : Int} {tA tB : ℚ}
    (hp : pB < pA) (htA : tA < 10000000000) (htB : 0 ≤ tB) :
    redisScore pA tA < redisScore pB tB := by
  unfold redisScore
  have h1 : (pB : ℚ) + 1 ≤ (pA : ℚ) := by
    have : pB + 1 ≤ pA := hp
    exact_mod_cast this
  nlinarith [h1, htA, htB]

theorem redisScore_fifo {p : Int} {tA tB : ℚ} (ht : tA < tB) :
    redisScore p tA < redisScore p tB := by
  unfold redisScore
  linarith

theorem scoreLt_trans : ∀ (a b c : String × ℚ),
    scoreLt a b = true → scoreLt b c = true → scoreLt a c = true := by
  intro a b c hab hbc
  simp only [scoreLt, decide_eq_true_eq] at *
  exact lt_trans hab hbc

theorem scoreLt_irrefl : ∀ (a : String × ℚ), scoreLt a a = false := by
  intro a
  simp [scoreLt]

theorem better_iff {a b : Task} :
    better a b = true ↔
      (b.priority < a.priority ∨
        (a.priority = b.priority ∧ a.created_at < b.created_at)) := by
  unfold better taskKey
  simp only [decide_eq_true_eq]
  constructor
  · rintro (h | ⟨he, hr⟩)
    · exact Or.inl (by omega)
    · exact Or.inr ⟨by omega, by exact_mod_cast hr⟩
  · rintro (h | ⟨he, hr⟩)
    · exact Or.inl (by omega)
    · exact Or.inr ⟨by omega, by exact_mod_cast hr⟩

/-! ## The claims -/

/--
C2: dequeue order respects priority then age.  Embedded queue: whenever
rows `A` and `B` are both pending and `A` strictly precedes `B` (larger
priority, or equal priority and strictly older `created_at`), the
`ORDER BY priority DESC, created_at ASC LIMIT 1` selection never returns
`B`.  Out-of-process queue: with `score = -priority * 1e10 + timestamp`,
a strictly higher priority gives a strictly smaller score (for timestamps
in `[0, 1e10)`), equal priorities order by enqueue time, and `BZPOPMIN`
never pops an entry while another entry has a strictly smaller score.
-/
theorem dequeue_priority_then_age :
    (∀ (db : DB) (A B : Task), A ∈ db → B ∈ db →
      A.status = .pending → B.status = .pending →
      (B.priority < A.priority ∨
        (A.priority = B.priority ∧ A.created_at < B.created_at)) →
      selectNextPending db ≠ some B)
    ∧ (∀ (pA pB : Int) (tA tB : ℚ), 0 ≤ tB → tA < 10000000000 →
        ((pB < pA → redisScore pA tA < redisScore pB tB) ∧
         (pA = pB → tA < tB → redisScore pA tA < redisScore pB tB)))
    ∧ (∀ (q : RQueue) (a b : String × ℚ), a ∈ q → a.2 < b.2 →
        bzpopmin q ≠ some b) := by
  refine ⟨?_, ?_, ?_⟩
  · intro db A B hA hB hAp hBp hbetter hsel
    have hmem : A ∈ db.filter (fun t => t.status == .pending) :=
      List.mem_filter.mpr ⟨hA, by simp [hAp]⟩
    have hopt := pickBest_optimal better better_trans better_irrefl _ _ hsel
      A hmem
    rw [better_iff.mpr hbetter] at hopt
    exact Bool.noConfusion hopt
  · intro pA pB tA tB htB htA
    constructor
    · intro hp
      exact redisScore_priority_order hp htA htB
    · intro hp ht
      subst hp
      exact redisScore_fifo ht
  · intro q a b ha hlt hpop
    have hopt := pickBest_optimal scoreLt scoreLt_trans scoreLt_irrefl _ _
      hpop a ha
    rw [show scoreLt a b = true by simpa [scoreLt] using hlt] at hopt
    exact Bool.noConfusion hopt

/-- Concrete rows exercising the dequeue-order theorem. -/
def wHull : Task := { task_id := "A", status := .pending, priority := 5,
                      created_at := 10 }

def wLate : Task := { task_id := "B", status := .pending, priority := 0,
                      created_at := 3 }

/-- Witness for C2 at concrete inputs: a priority-5 row shields a
priority-0 row from selection, scores order as claimed, and `BZPOPMIN`
skips the higher-score member. -/
theorem dequeue_priority_then_age_witness :
    selectNextPending [wHull, wLate] ≠ some wLate ∧
    redisScore 10 7 < redisScore 0 2 ∧
    bzpopmin [("a", (2 : ℚ)), ("b", (3 : ℚ))] ≠ some ("b", (3 : ℚ)) := by
  refine ⟨?_, ?_, ?_⟩
  · exact dequeue_priority_then_age.1 [wHull, wLate] wHull wLate
      (by decide) (by decide) (by decide) (by decide) (by decide)
  · exact (dequeue_priority_then_age.2.1 10 0 7 2 (by norm_num)
      (by norm_num)).1 (by norm_num)
  · exact dequeue_priority_then_age.2.2 [("a", (2 : ℚ)), ("b", (3 : ℚ))]
      ("a", (2 : ℚ)) ("b", (3 : ℚ)) (by decide) (by norm_num)

/--
C1: the claim is an atomic CAS pending→processing stamping `worker_id`
and `started_at`.  (1) A successful `claimOnce` found the row pending at
CAS time, leaves it processing with the caller's `worker_id`/`started_at`,
and no further `claimOnce` from the resulting state can claim the same
task id (until a reset makes it pending again — the CAS requires pending).
(2) When every attempt hits contention, the loop returns `none` after at
most 3 attempts.  (3) Any returned row comes out of a successful CAS at
one of the at-most-3 attempts — never from a failed CAS.  (4) The Redis
path likewise returns a row only when its conditional update found the
row pending.
-/
theorem claim_next_exclusive :
    (∀ (r rw : DB) (w : String) (now : Nat) (t : Task) (db' : DB),
      uniqueKeys rw →
      claimOnce r rw w now = .claimed t db' →
      ∃ u, findTask rw t.task_id = some u ∧ u.status = .pending ∧
        findTask db' t.task_id =
          some { u with status := .processing
                        started_at := some now
                        worker_id := some w } ∧
        ∀ (r2 : DB) (w2 : String) (now2 : Nat) (t2 : Task) (db2 : DB),
          claimOnce r2 db' w2 now2 = .claimed t2 db2 →
          t2.task_id ≠ t.task_id)
    ∧ (∀ (reads writes : Nat → DB) (w : String) (now : Nat),
        (∀ i, i < 3 → ∃ after,
          claimOnce (reads i) (writes i) w now = .contended after) →
        get_next_task reads writes w now = none)
    ∧ (∀ (reads writes : Nat → DB) (w : String) (now : Nat) (t : Task)
        (db' : DB),
        get_next_task reads writes w now = some (t, db') →
        ∃ i, i < 3 ∧ claimOnce (reads i) (writes i) w now = .claimed t db')
    ∧ (∀ (db : DB) (tid w : String) (now : Nat) (t : Task) (db' : DB),
        get_next_task_redis db (some tid) w now = (some t, db') →
        ∃ u ∈ db, u.task_id = tid ∧ u.status = .pending) := by
  refine ⟨?_, fun reads writes w now h => get_next_task_contended h,
    fun reads writes w now t db' h => get_next_task_success_inv h, ?_⟩
  · intro r rw w now t db' hu h
    rcases claimOnce_claimed_inv h with ⟨hsel, hok, hdb'⟩
    rcases casClaim_success_row hu hok with ⟨u, hfu, hup, hafter⟩
    refine ⟨u, hfu, hup, by rw [hdb']; exact hafter, ?_⟩
    intro r2 w2 now2 t2 db2 h2 hid2
    rcases claimOnce_claimed_inv h2 with ⟨_, hok2, _⟩
    rw [hid2] at hok2
    rcases casClaim_ok_iff.mp hok2 with ⟨v, hv, hvid, hvp⟩
    rw [hdb'] at hv
    rcases mem_updateRows hv with ⟨u', hu', hve⟩
    by_cases hp : (u'.task_id == t.task_id && u'.status == Status.pending)
        = true
    · rw [if_pos hp] at hve
      rw [hve] at hvp
      simp at hvp
    · rw [if_neg hp] at hve
      have hueq : u' = u :=
        unique_find_mem hu hfu u' hu' (by rw [← hve]; exact hvid)
      apply hp
      rw [hueq]
      simp [findTask_id hfu, hup]
  · intro db tid w now t db' h
    unfold get_next_task_redis at h
    replace h :
        (match findTask db tid with
         | none => ((none : Option Task), db)
         | some t =>
             if (casClaim db tid w now).2 = true then
               (some t, (casClaim db tid w now).1)
             else (none, (casClaim db tid w now).1)) = (some t, db') := h
    cases hft : findTask db tid with
    | none =>
        rw [hft] at h
        exact Option.noConfusion (congrArg Prod.fst h)
    | some u =>
        rw [hft] at h
        replace h :
            (if (casClaim db tid w now).2 = true then
              (some u, (casClaim db tid w now).1)
            else (none, (casClaim db tid w now).1)) = (some t, db') := h
        by_cases hok : (casClaim db tid w now).2 = true
        · rcases casClaim_ok_iff.mp hok with ⟨v, hv, hvid, hvp⟩
          exact ⟨v, hv, hvid, hvp⟩
        · rw [if_neg hok] at h
          exact Option.noConfusion (congrArg Prod.fst h)

/-- A fresh pending row for the claim witness. -/
def wPend : Task := { task_id := "t1", file_name := "a.pdf" }

/-- The table after `wPend` is claimed by `w1` at time 5. -/
def wClaimedDb : DB :=
  [{ wPend with
      status := .processing
      started_at := some 5
      worker_id := some "w1" }]

/-- Witness for C1 at concrete inputs: claiming the only pending row
succeeds and stamps it; a loop whose CAS always loses returns `none`. -/
theorem claim_next_exclusive_witness :
    (∃ u, findTask [wPend] "t1" = some u ∧ u.status = .pending ∧
      findTask wClaimedDb "t1" =
        some { u with status := .processing
                      started_at := some 5
                      worker_id := some "w1" } ∧
      ∀ (r2 : DB) (w2 : String) (now2 : Nat) (t2 : Task) (db2 : DB),
        claimOnce r2 wClaimedDb w2 now2 = .claimed t2 db2 →
        t2.task_id ≠ "t1") ∧
    get_next_task (fun _ => [wPend]) (fun _ => ([] : DB)) "w1" 5 = none := by
  constructor
  · have h := claim_next_exclusive.1 [wPend] [wPend] "w1" 5 wPend wClaimedDb
      (by unfold uniqueKeys; simp) (by rfl)
    rcases h with ⟨u, h1, h2, h3, h4⟩
    have hid : wPend.task_id = "t1" := rfl
    exact ⟨u, by rw [← hid]; exact h1, h2, by rw [← hid]; exact h3,
      fun r2 w2 now2 t2 db2 hc => by rw [← hid]; exact h4 r2 w2 now2 t2 db2 hc⟩
  · exact claim_next_exclusive.2.1 (fun _ => [wPend]) (fun _ => ([] : DB))
      "w1" 5 (fun i _ =>
        ⟨[], show claimOnce [wPend] [] "w1" 5 = .contended [] from rfl⟩)

/--
C4: `reset_stale(timeout)` moves exactly the processing rows whose
`started_at` is older than the timeout back to pending, nulls `worker_id`,
adds exactly 1 to `retry_count` and leaves every other row (and every
other column) unchanged; the sweep reports the number of reset rows, and a
reset row is reclaimable — the pending→processing CAS on its id succeeds
against the post-sweep table.
-/
theorem reset_stale_spec :
    (∀ (db : DB) (m now i : Nat) (h : i < db.length),
      (reset_stale_tasks db m now).1.get
          ⟨i, by rw [show (reset_stale_tasks db m now).1 =
              updateRows db (staleGuard m now) _ from rfl,
            updateRows_length]; exact h⟩ =
        (if staleGuard m now (db.get ⟨i, h⟩) then
          { db.get ⟨i, h⟩ with
              status := .pending
              worker_id := none
              retry_count := (db.get ⟨i, h⟩).retry_count + 1 }
         else db.get ⟨i, h⟩))
    ∧ (∀ (db : DB) (m now : Nat),
        (reset_stale_tasks db m now).2 =
          (db.filter (staleGuard m now)).length)
    ∧ (∀ (db : DB) (m now : Nat) (t : Task), t ∈ db →
        staleGuard m now t = true → ∀ (w : String) (now2 : Nat),
        (casClaim (reset_stale_tasks db m now).1 t.task_id w now2).2 = true)
    ∧ (∀ (m now : Nat) (t : Task),
        staleGuard m now t = true ↔
          (t.status = .processing ∧
            ∃ s, t.started_at = some s ∧ s + m * 60 < now)) := by
  refine ⟨reset_stale_row, reset_stale_count,
    fun db m now t ht hst w now2 => reset_stale_reclaimable ht hst w now2,
    ?_⟩
  intro m now t
  unfold staleGuard
  constructor
  · intro h
    rcases Bool.and_eq_true _ _ |>.mp h with ⟨h1, h2⟩
    refine ⟨by simpa using h1, ?_⟩
    cases hs : t.started_at with
    | none => rw [hs] at h2; exact Bool.noConfusion h2
    | some s =>
        rw [hs] at h2
        exact ⟨s, rfl, by simpa using h2⟩
  · rintro ⟨h1, s, hs, h2⟩
    rw [hs]
    simp [h1, h2]

/-- A stale processing row for the reset witness. -/
def wStale : Task := { task_id := "s1", status := .processing,
                       started_at := some 10, worker_id := some "w9",
                       retry_count := 0 }

/-- Witness for C4: at timeout 1 minute and now = 100, the stale row is
reset with `retry_count` 1 and can be claimed again. -/
theorem reset_stale_spec_witness :
    (reset_stale_tasks [wStale] 1 100).1.get ⟨0, by decide⟩ =
      { wStale with status := .pending, worker_id := none,
                    retry_count := 1 } ∧
    (reset_stale_tasks [wStale] 1 100).2 = 1 ∧
    (casClaim (reset_stale_tasks [wStale] 1 100).1 "s1" "w2" 101).2 = true := by
  refine ⟨?_, ?_, ?_⟩
  · have h := reset_stale_spec.1 [wStale] 1 100 0 (by decide)
    rw [h]
    rfl
  · rw [reset_stale_spec.2.1 [wStale] 1 100]
    rfl
  · exact reset_stale_spec.2.2.1 [wStale] 1 100 wStale (by decide)
      (by decide) "w2" 101

/-- A processing row held by worker `w1`. -/
def heldByW1 : Task := { task_id := "T", status := .processing,
                         worker_id := some "w1" }

/-- The same row held by worker `w2`. -/
def heldByW2 : Task := { task_id := "T", status := .processing,
                         worker_id := some "w2" }

/--
C5 counterexample: finalize as the worker actually issues it
(`litserve_worker._process_task` passes **no** `worker_id`) succeeds no
matter which worker holds the row — the result is identical whether the
row's `worker_id` is `w1` or `w2`, so success does not require the row's
`worker_id` to match the finalizing worker, contradicting the claim that
the update succeeds only when the worker ids match.
-/
theorem finalize_no_worker_check_counterexample :
    (update_task_status [heldByW1] "T" .completed (some "/out") none
      none 9).2 = true ∧
    (update_task_status [heldByW2] "T" .completed (some "/out") none
      none 9).2 = true ∧
    (findTask (update_task_status [heldByW1] "T" .completed (some "/out")
        none none 9).1 "T").map Task.status = some .completed := by
  refine ⟨by decide, by decide, by decide⟩

/--
C5 (amended): finalize to completed or failed is a conditional update
requiring `status = 'processing'`; the `worker_id` match is enforced only
when the caller supplies a worker id (the worker's own finalize calls pass
none, so only the status guard applies for them).  When the row was
already moved (cancelled, reset to pending, or finished) the update
returns false and leaves the table unchanged; on success it stamps
`completed_at` and sets `result_path` (completed) or `error_message`
(failed).
-/
theorem finalize_conditional_update :
    (∀ (db : DB) (tid wk : String) (rp em : Option String) (now : Nat)
      (st : Status), (st = .completed ∨ st = .failed) →
      (update_task_status db tid st rp em (some wk) now).2 = true →
      ∃ t ∈ db, t.task_id = tid ∧ t.status = .processing ∧
        t.worker_id = some wk)
    ∧ (∀ (db : DB) (tid : String) (rp em : Option String) (now : Nat)
        (st : Status), (st = .completed ∨ st = .failed) →
        (update_task_status db tid st rp em none now).2 = true →
        ∃ t ∈ db, t.task_id = tid ∧ t.status = .processing)
    ∧ (∀ (db : DB) (tid : String) (rp em wk : Option String) (now : Nat)
        (st : Status), (st = .completed ∨ st = .failed) →
        (∀ t ∈ db, t.task_id = tid → t.status ≠ .processing) →
        (update_task_status db tid st rp em wk now).2 = false ∧
        (update_task_status db tid st rp em wk now).1 = db)
    ∧ (∀ (db : DB) (tid : String) (rp em wk : Option String) (now : Nat),
        uniqueKeys db →
        (update_task_status db tid .completed rp em wk now).2 = true →
        ∃ t, findTask db tid = some t ∧ t.status = .processing ∧
          findTask (update_task_status db tid .completed rp em wk now).1
              tid =
            some { t with status := .completed
                          completed_at := some now
                          result_path := rp })
    ∧ (∀ (db : DB) (tid : String) (rp em wk : Option String) (now : Nat),
        uniqueKeys db →
        (update_task_status db tid .failed rp em wk now).2 = true →
        ∃ t, findTask db tid = some t ∧ t.status = .processing ∧
          findTask (update_task_status db tid .failed rp em wk now).1
              tid =
            some { t with status := .failed
                          completed_at := some now
                          error_message := em }) := by
  refine ⟨?_, ?_, ?_, ?_, ?_⟩
  · intro db tid wk rp em now st hst h
    rcases finish_success_sound hst h with ⟨t, ht, h1, h2, h3⟩
    exact ⟨t, ht, h1, h2, h3 wk rfl⟩
  · intro db tid rp em now st hst h
    rcases finish_success_sound hst h with ⟨t, ht, h1, h2, _⟩
    exact ⟨t, ht, h1, h2⟩
  · intro db tid rp em wk now st hst h
    exact finish_already_moved hst h
  · intro db tid rp em wk now hu h
    exact finish_completed_row hu h
  · intro db tid rp em wk now hu h
    exact finish_failed_row hu h

/-- Witness for the amended C5: finalizing the `w1`-held row with a
matching worker id succeeds and stamps the row; finalizing a cancelled
row fails and changes nothing. -/
theorem finalize_conditional_update_witness :
    (∃ t ∈ [heldByW1], t.task_id = "T" ∧ t.status = .processing ∧
      t.worker_id = some "w1") ∧
    ((update_task_status [{ heldByW1 with status := .cancelled }] "T"
        .completed (some "/out") none none 9).2 = false ∧
      (update_task_status [{ heldByW1 with status := .cancelled }] "T"
        .completed (some "/out") none none 9).1 =
        [{ heldByW1 with status := .cancelled }]) := by
  constructor
  · exact finalize_conditional_update.1 [heldByW1] "T" "w1" (some "/out")
      none 9 .completed (Or.inl rfl) (by decide)
  · exact finalize_conditional_update.2.2.1
      [{ heldByW1 with status := .cancelled }] "T" (some "/out") none none
      9 .completed (Or.inl rfl) (by decide)

/--
C6: a cancel on a pending task succeeds, moves every row under the id to
cancelled and unlinks the upload file; a cancel on a task in any other
status returns the HTTP-400 result carrying the current status and leaves
both the table and the files untouched; and once cancelled, no operation
of the system (none inserting a fresh row under the id nor converting it
to a parent — UUIDs are fresh, and only a freshly claimed task is ever
converted) moves the row again, so no later `claim_next` CAS can ever
return that task.
-/
theorem cancel_pending_only :
    (∀ (db : DB) (files : List String) (tid : String)
      (uid : Option String) (now : Nat) (task : Task),
      findTask db tid = some task →
      task.status = .pending →
      (cancel_task db files tid uid true now).1 = .success ∧
      lockedAt (cancel_task db files tid uid true now).2.1 tid .cancelled ∧
      (∀ fp, task.file_path = some fp →
        (cancel_task db files tid uid true now).2.2 =
          files.filter (fun q => !(q == fp))))
    ∧ (∀ (db : DB) (files : List String) (tid : String)
        (uid : Option String) (now : Nat) (task : Task),
        findTask db tid = some task →
        task.status ≠ .pending →
        cancel_task db files tid uid true now =
          (.badRequest task.status, db, files))
    ∧ (∀ (db : DB) (tid : String) (ops : List Op),
        lockedAt db tid .cancelled →
        (∀ op ∈ ops, avoidsId tid op) →
        lockedAt (applyOps db ops) tid .cancelled ∧
        (∀ (r : DB) (w : String) (now : Nat) (t : Task) (db2 : DB),
          claimOnce r (applyOps db ops) w now = .claimed t db2 →
          t.task_id ≠ tid)) := by
  refine ⟨?_, ?_, ?_⟩
  · intro db files tid uid now task hft hpend
    have hb : (task.status == Status.pending) = true := by simp [hpend]
    have hcc : cancel_task db files tid uid true now =
        (.success,
         (update_task_status db tid .cancelled none none none now).1,
         match task.file_path with
         | some fp => files.filter (fun q => !(q == fp))
         | none => files) := by
      unfold cancel_task
      rw [hft]
      simp [hb]
    rw [hcc]
    refine ⟨rfl, ?_, ?_⟩
    · intro u' hu' hid
      rcases mem_updateRows hu' with ⟨u, hu, hve⟩
      by_cases hp : (u.task_id == tid) = true
      · rw [if_pos hp] at hve
        rw [hve]
      · rw [if_neg hp] at hve
        rw [hve] at hid
        exact absurd (by simp [hid]) hp
    · intro fp hfp
      rw [hfp]
  · intro db files tid uid now task hft hnp
    have hb : (task.status == Status.pending) = false := by
      simp [hnp]
    unfold cancel_task
    rw [hft]
    simp [hb]
  · intro db tid ops hlock hops
    have hlock' := lockedAt_applyOps (by decide) (by decide) hops hlock
    refine ⟨hlock', ?_⟩
    intro r w now t db2 h hid
    rcases claimOnce_claimed_inv h with ⟨_, hok, _⟩
    rw [hid] at hok
    rcases casClaim_ok_iff.mp hok with ⟨v, hv, hvid, hvp⟩
    have := hlock' v hv hvid
    rw [this] at hvp
    exact Status.noConfusion hvp

/-- A pending task of user `u1` with its upload file on disk. -/
def wCancelMe : Task := { task_id := "c1", file_path := some "/up/c1.pdf",
                          user_id := some "u1" }

/-- Witness for C6: the pending task cancels (row cancelled, file gone), a
processing task is refused with its current status, and after the cancel
no claim CAS over any later trace can return the task. -/
theorem cancel_pending_only_witness :
    (cancel_task [wCancelMe] ["/up/c1.pdf"] "c1" (some "u1") true 7).1 =
      .success ∧
    lockedAt (cancel_task [wCancelMe] ["/up/c1.pdf"] "c1" (some "u1") true
      7).2.1 "c1" .cancelled ∧
    (cancel_task [heldByW1] [] "T" (some "u1") true 7).1 =
      .badRequest .processing ∧
    (∀ (r : DB) (w : String) (now : Nat) (t : Task) (db2 : DB),
      claimOnce r (applyOps [{ wCancelMe with status := .cancelled }]
        [Op.claim "w4" 9, Op.resetStale 1 999]) w now = .claimed t db2 →
      t.task_id ≠ "c1") := by
  have h1 := cancel_pending_only.1 [wCancelMe] ["/up/c1.pdf"] "c1"
    (some "u1") 7 wCancelMe (by decide) (by decide)
  have h2 := cancel_pending_only.2.1 [heldByW1] [] "T" (some "u1") 7
    heldByW1 (by decide) (by decide)
  have h3 := cancel_pending_only.2.2
    [{ wCancelMe with status := .cancelled }] "c1"
    [Op.claim "w4" 9, Op.resetStale 1 999]
    (by intro u hu hid
        rcases List.mem_singleton.mp hu with rfl
        rfl)
    (by intro op hop
        rcases List.mem_cons.mp hop with rfl | hop'
        · exact ⟨by simp [newId], by simp [convertTarget]⟩
        · rcases List.mem_singleton.mp hop' with rfl
          exact ⟨by simp [newId], by simp [convertTarget]⟩)
  exact ⟨h1.1, h1.2.1, by rw [h2]; rfl, h3.2⟩

/-- A freshly created, claimed, then finalized table, step by step. -/
def c8created : DB := insertTaskRow [] "T8" "f.pdf" "/up/f.pdf" "pipeline"
  0 none 1

def c8claimed : DB := (casClaim c8created "T8" "w1" 2).1

def c8finished : DB :=
  (update_task_status c8claimed "T8" .completed (some "/out/f") none
    none 3).1

/--
C8 counterexample: after a successful finalize the row keeps the claiming
worker's id, so it has `status = completed` with `worker_id = some "w1"`;
and `convert_to_parent_task` yields a processing row whose `worker_id` is
still whatever it was (here null, converting an unclaimed row).  Both
break "worker_id is non-null iff status = processing".
-/
theorem worker_id_iff_processing_counterexample :
    (findTask c8finished "T8").map (fun t => (t.status, t.worker_id)) =
      some (.completed, some "w1") ∧
    (findTask (convert_to_parent_task c8created "T8" 2) "T8").map
        (fun t => (t.status, t.worker_id)) =
      some (.processing, none) := by
  refine ⟨by decide, by decide⟩

/--
C8 (amended): `worker_id` records the claiming worker.  It is set exactly
by the claim CAS (together with `status = processing`) and nulled exactly
by the reset paths; a freshly created row is pending with a null worker;
finalize to completed/failed keeps the last worker id on the row, so
completed and failed rows retain a non-null `worker_id`; and parent
conversion forces `status = processing` without touching `worker_id`.
The biconditional "worker_id non-null iff processing" therefore holds
after create, claim and reset-stale, but not after finalize or parent
conversion.
-/
theorem worker_id_tracks_claim :
    (∀ (db : DB) (tid fn fp bk : String) (prio : Int)
      (uid : Option String) (now : Nat), findTask db tid = none →
      (findTask (insertTaskRow db tid fn fp bk prio uid now) tid).map
          (fun t => (t.status, t.worker_id)) = some (.pending, none))
    ∧ (∀ (db : DB) (tid w : String) (now : Nat), uniqueKeys db →
        (casClaim db tid w now).2 = true →
        (findTask (casClaim db tid w now).1 tid).map
            (fun t => (t.status, t.worker_id)) =
          some (.processing, some w))
    ∧ (∀ (db : DB) (tid : String) (rp em wk : Option String) (now : Nat),
        uniqueKeys db →
        (update_task_status db tid .completed rp em wk now).2 = true →
        ∃ t, findTask db tid = some t ∧
          (findTask (update_task_status db tid .completed rp em wk
              now).1 tid).map (fun u => (u.status, u.worker_id)) =
            some (.completed, t.worker_id))
    ∧ (∀ (db : DB) (tid : String) (rp em wk : Option String) (now : Nat),
        uniqueKeys db →
        (update_task_status db tid .failed rp em wk now).2 = true →
        ∃ t, findTask db tid = some t ∧
          (findTask (update_task_status db tid .failed rp em wk
              now).1 tid).map (fun u => (u.status, u.worker_id)) =
            some (.failed, t.worker_id))
    ∧ (∀ (db : DB) (m now i : Nat) (h : i < db.length),
        staleGuard m now (db.get ⟨i, h⟩) = true →
        ((reset_stale_tasks db m now).1.get
            ⟨i, by rw [show (reset_stale_tasks db m now).1 =
                updateRows db (staleGuard m now) _ from rfl,
              updateRows_length]; exact h⟩).status = .pending ∧
        ((reset_stale_tasks db m now).1.get
            ⟨i, by rw [show (reset_stale_tasks db m now).1 =
                updateRows db (staleGuard m now) _ from rfl,
              updateRows_length]; exact h⟩).worker_id = none)
    ∧ (∀ (db : DB) (tid : String) (cc : Nat) (t : Task),
        findTask db tid = some t →
        (findTask (convert_to_parent_task db tid cc) tid).map
            (fun u => (u.status, u.worker_id)) =
          some (.processing, t.worker_id)) := by
  refine ⟨?_, ?_, ?_, ?_, ?_, ?_⟩
  · intro db tid fn fp bk prio uid now hfresh
    rw [insertTaskRow_new hfresh]
    rfl
  · intro db tid w now hu h
    rcases casClaim_success_row hu h with ⟨t, _, _, hafter⟩
    rw [hafter]
    rfl
  · intro db tid rp em wk now hu h
    rcases finish_completed_row hu h with ⟨t, hft, _, hafter⟩
    exact ⟨t, hft, by rw [hafter]; rfl⟩
  · intro db tid rp em wk now hu h
    rcases finish_failed_row hu h with ⟨t, hft, _, hafter⟩
    exact ⟨t, hft, by rw [hafter]; rfl⟩
  · intro db m now i h hst
    constructor
    · rw [reset_stale_row db m now i h, if_pos hst]
    · rw [reset_stale_row db m now i h, if_pos hst]
  · intro db tid cc t hft
    rw [convert_to_parent_row hft]
    rfl

/-- Witness for the amended C8 on the concrete create/claim/finalize
table. -/
theorem worker_id_tracks_claim_witness :
    (findTask c8created "T8").map (fun t => (t.status, t.worker_id)) =
      some (.pending, none) ∧
    (findTask c8claimed "T8").map (fun t => (t.status, t.worker_id)) =
      some (.processing, some "w1") ∧
    (∃ t, findTask c8claimed "T8" = some t ∧
      (findTask c8finished "T8").map (fun u => (u.status, u.worker_id)) =
        some (.completed, t.worker_id)) := by
  refine ⟨?_, ?_, ?_⟩
  · exact worker_id_tracks_claim.1 [] "T8" "f.pdf" "/up/f.pdf" "pipeline"
      0 none 1 (by decide)
  · exact worker_id_tracks_claim.2.1 c8created "T8" "w1" 2
      (by unfold uniqueKeys; simp [c8created, insertTaskRow]) (by decide)
  · exact worker_id_tracks_claim.2.2.1 c8claimed "T8" (some "/out/f") none
      none 3
      (by unfold uniqueKeys
          simp [c8claimed, c8created, casClaim, updateRows, insertTaskRow])
      (by decide)

/--
C9 counterexample: with the Redis queue enabled and the publish failing
(`_enqueue_to_redis` catches the exception and returns False), the row is
still committed — `create_task` commits the `INSERT` when the `get_cursor`
context exits, *before* attempting the publish — contradicting "the row
insert is committed only if the publish succeeds".
-/
theorem create_commits_before_publish_counterexample :
    (findTask (create_task [] [] true false "T9" "f.pdf" "/up/f.pdf"
        "pipeline" 0 none 1 17).1 "T9").map Task.status =
      some .pending ∧
    (create_task [] [] true false "T9" "f.pdf" "/up/f.pdf" "pipeline" 0
      none 1 17).2 = [] := by
  refine ⟨by decide, by decide⟩

/--
C9 (amended): `create` always commits the pending row first and then
attempts the Redis publish; the publish enqueues `(task_id, score)` only
when Redis is enabled and the publish succeeds, and a publish failure is
caught and logged, leaving the committed row behind as the source of
truth — the row stays claimable through the embedded (SQLite) queue in
every case.
-/
theorem create_task_spec :
    ∀ (db : DB) (q : RQueue) (ro po : Bool) (tid fn fp bk : String)
      (prio : Int) (uid : Option String) (now : Nat) (ts : ℚ),
      findTask db tid = none →
      ((findTask (create_task db q ro po tid fn fp bk prio uid now
          ts).1 tid).map (fun t => (t.status, t.priority, t.user_id)) =
        some (.pending, prio, uid)) ∧
      ((create_task db q ro po tid fn fp bk prio uid now ts).2 =
        if ro && po then rqEnqueue q tid prio ts else q) ∧
      (∀ (w : String) (now2 : Nat),
        (casClaim (create_task db q ro po tid fn fp bk prio uid now
          ts).1 tid w now2).2 = true) := by
  intro db q ro po tid fn fp bk prio uid now ts hfresh
  refine ⟨?_, rfl, ?_⟩
  · show (findTask (insertTaskRow db tid fn fp bk prio uid now) tid).map
      _ = _
    rw [insertTaskRow_new hfresh]
    rfl
  · intro w now2
    apply casClaim_ok_iff.mpr
    refine ⟨{ task_id := tid
              file_name := fn
              file_path := some fp
              backend := bk
              priority := prio
              user_id := uid
              created_at := now
              status := .pending }, ?_, rfl, rfl⟩
    show _ ∈ db ++ [_]
    exact List.mem_append_right _ (List.mem_singleton.mpr rfl)

/-- Witness for the amended C9: a create with a failing publish leaves a
pending, claimable row and an untouched queue; with a succeeding publish
the queue gains the scored entry. -/
theorem create_task_spec_witness :
    ((findTask (create_task [] [] true false "T9" "f.pdf" "/up/f.pdf"
        "pipeline" 0 none 1 17).1 "T9").map
        (fun t => (t.status, t.priority, t.user_id)) =
      some (.pending, 0, none)) ∧
    ((create_task [] [] true false "T9" "f.pdf" "/up/f.pdf" "pipeline" 0
        none 1 17).2 = if true && false then rqEnqueue [] "T9" 0 17
          else []) ∧
    (casClaim (create_task [] [] true false "T9" "f.pdf" "/up/f.pdf"
        "pipeline" 0 none 1 17).1 "T9" "w1" 2).2 = true := by
  have h := create_task_spec [] [] true false "T9" "f.pdf" "/up/f.pdf"
    "pipeline" 0 none 1 17 (by decide)
  exact ⟨h.1, h.2.1, h.2.2 "w1" 2⟩

/--
A serial schedule reaching the C3 violation: a parent `P` with one child
`C`; both time out in a stale sweep while the first worker is still
running; the child is re-delivered, and both the zombie holder and the
re-claimer run the success epilogue — `_process_task` calls
`on_child_task_completed` without checking the finalize result, so the
parent counter is bumped twice.
-/
def c3ops : List Op :=
  [ .create "P" "book.pdf" "/up/book.pdf" "pipeline" 0 none 1,
    .claim "w0" 90,
    .createChild "P" "C" "chunk1.pdf" "/splits/P/c1.pdf" "pipeline" 0
      none 91,
    .convertParent "P" 1,
    .claim "w1" 92,
    .resetStale 1 200,
    .claim "w2" 201,
    .claim "w3" 202,
    .finishSuccess "C" "/out/C" "/out/P" 203,
    .finishSuccess "C" "/out/C" "/out/P" 204 ]

def c3final : DB := applyOps [] c3ops

/--
C3 counterexample: after the double-counted completion of the only child,
the parent row has `child_count = 1` but `child_completed = 2` — the
invariant "child_completed never exceeds child_count" fails on this
serial schedule of store transactions.
-/
theorem parent_counter_overflow_counterexample :
    (findTask c3final "P").map
        (fun t => (t.child_count, t.child_completed)) = some (1, 2) := by
  decide

/--
C3 (amended): each completion callback adds exactly one to the parent's
`child_completed` and reports readiness iff the new count reaches
`child_count`; provided each child's completion is reported at most once
(at most `child_count` callbacks), `child_completed` never exceeds
`child_count` — but a stale-reset re-delivery can run the callback twice
for one child and push the counter above `child_count`.  On the first
child failure the parent moves to failed only while still processing
(with an error naming the failing child) and is otherwise untouched; a
failed parent is never reverted by the system's operations, and a
finalize-to-completed on it fails leaving the table unchanged, so a
parent is never both failed and completed.
-/
theorem parent_child_counters :
    (∀ (db : DB) (childTid pid : String) (p : Task),
      childParent db childTid = some pid → findTask db pid = some p →
      findTask (on_child_task_completed db childTid).1 pid =
        some { p with child_completed := p.child_completed + 1 } ∧
      ((on_child_task_completed db childTid).2 = some pid ↔
        p.child_count ≤ p.child_completed + 1))
    ∧ (∀ (db : DB) (calls : List String) (pid : String) (p : Task),
        findTask db pid = some p → p.child_completed = 0 →
        calls.length ≤ p.child_count →
        ∃ p', findTask (foldCallbacks db calls) pid = some p' ∧
          p'.child_completed ≤ p'.child_count)
    ∧ (∀ (db : DB) (childTid err : String) (now : Nat) (pid : String)
        (p : Task), childParent db childTid = some pid →
        findTask db pid = some p → p.status = .processing →
        findTask (on_child_task_failed db childTid err now) pid =
          some { p with
                  status := .failed
                  completed_at := some now
                  error_message :=
                    some ("Subtask " ++ childTid ++ " failed: " ++ err) })
    ∧ (∀ (db : DB) (childTid err : String) (now : Nat) (pid : String)
        (p : Task), uniqueKeys db → childParent db childTid = some pid →
        findTask db pid = some p → p.status ≠ .processing →
        on_child_task_failed db childTid err now = db)
    ∧ (∀ (db : DB) (pid : String) (ops : List Op),
        lockedAt db pid .failed → (∀ op ∈ ops, avoidsId pid op) →
        lockedAt (applyOps db ops) pid .failed)
    ∧ (∀ (db : DB) (pid : String) (rp em wk : Option String) (now : Nat),
        lockedAt db pid .failed →
        (update_task_status db pid .completed rp em wk now).2 = false ∧
        (update_task_status db pid .completed rp em wk now).1 = db) := by
  refine ⟨fun db c pid p hcp hfp => on_child_completed_spec hcp hfp,
    ?_, fun db c err now pid p hcp hfp hpr =>
      on_child_failed_processing hcp hfp hpr,
    fun db c err now pid p hu hcp hfp hnp =>
      on_child_failed_not_processing hu hcp hfp hnp,
    fun db pid ops hlock hops =>
      lockedAt_applyOps (by decide) (by decide) hops hlock,
    ?_⟩
  · intro db calls pid p hfp hz hlen
    rcases foldCallbacks_bound calls db p hfp with ⟨p', hp', hc, hle⟩
    refine ⟨p', hp', ?_⟩
    rw [hc]
    omega
  · intro db pid rp em wk now hlock
    exact finish_already_moved (Or.inl rfl)
      (fun t ht hid => by rw [hlock t ht hid]; intro hx
                          exact Status.noConfusion hx)

/-- A processing parent with two children, one of them completed. -/
def wParent : Task := { task_id := "P", status := .processing,
                        is_parent := true, child_count := 2 }

def wChild : Task := { task_id := "C", parent_task_id := some "P",
                       status := .processing }

/-- Witness for the amended C3: completing the first of two children
bumps the counter to 1 and does not report readiness; a callback run
at most `child_count` times keeps the invariant; a failed parent rejects
the finalize-to-completed. -/
theorem parent_child_counters_witness :
    (findTask (on_child_task_completed [wParent, wChild] "C").1 "P" =
        some { wParent with child_completed := 1 } ∧
      ((on_child_task_completed [wParent, wChild] "C").2 = some "P" ↔
        (2 : Nat) ≤ 1)) ∧
    (∃ p', findTask (foldCallbacks [wParent, wChild] ["C", "C"]) "P" =
        some p' ∧ p'.child_completed ≤ p'.child_count) ∧
    (update_task_status [{ wParent with status := .failed }] "P"
        .completed (some "/out") none none 9).2 = false := by
  refine ⟨?_, ?_, ?_⟩
  · have h := parent_child_counters.1 [wParent, wChild] "C" "P" wParent
      (by decide) (by decide)
    exact ⟨h.1, by rw [h.2]; exact Iff.rfl⟩
  · exact parent_child_counters.2.1 [wParent, wChild] ["C", "C"] "P"
      wParent (by decide) (by decide) (by decide)
  · exact (parent_child_counters.2.2.2.2.2 [{ wParent with
        status := .failed }] "P" (some "/out") none none 9
      (by intro u hu hid
          rcases List.mem_singleton.mp hu with rfl
          rfl)).1

/--
C7: the merger processes the children as a permutation of the child list
sorted by `chunk_info.start_page` ascending; a child that is not completed
or has no markdown artifact contributes nothing; a completed child with
markdown and chunk info contributes the `<!-- Pages s-e -->` delimiter
followed by its content, so the delimiter identifying the page range
stands between consecutive fragments; JSON pages are shifted by
`start_page - 1`; the merged markdown is the concatenation of the sorted
contributions; and the parent is finalized completed with the parent
output directory as `result_path` (a conditional update requiring the
parent to still be processing).
-/
theorem merge_parent_results :
    (∀ (children : List ChildView),
      (sortChildren children).Perm children ∧
      (sortChildren children).Pairwise (fun a b => chunkKey a ≤ chunkKey b))
    ∧ (∀ c : ChildView, c.status ≠ .completed →
        childMdParts c = [] ∧ childJsonPages c = [])
    ∧ (∀ c : ChildView, c.mdContent = none → childMdParts c = [])
    ∧ (∀ (c : ChildView) (md : String) (ci : ChunkInfo),
        c.status = .completed → c.mdContent = some md →
        c.chunkInfo = some ci → childMdParts c = [pageDelim ci, md])
    ∧ (∀ ci : ChunkInfo, pageDelim ci =
        "\n\n<!-- Pages " ++ toString ci.start_page ++ "-" ++
          toString ci.end_page ++ " -->\n\n")
    ∧ (∀ (c : ChildView) (ps : List PageEntry) (ci : ChunkInfo),
        c.status = .completed → c.jsonPages = some ps →
        c.chunkInfo = some ci →
        childJsonPages c = ps.map (shiftPage ((ci.start_page : Int) - 1)))
    ∧ (∀ (off n : Int) (p : PageEntry), p.page_number = some n →
        (shiftPage off p).page_number = some (n + off))
    ∧ (∀ children : List ChildView, (mergeOutputs children).mergedMd =
        String.join
          (List.flatten ((sortChildren children).map childMdParts)))
    ∧ (∀ (db : DB) (pid dir : String) (now : Nat) (p : Task),
        uniqueKeys db → findTask db pid = some p →
        p.status = .processing →
        (mergeParentFinalize db pid dir now).2 = true ∧
        findTask (mergeParentFinalize db pid dir now).1 pid =
          some { p with status := .completed
                        completed_at := some now
                        result_path := some dir }) := by
  refine ⟨fun children => ⟨sortChildren_perm children,
      sortChildren_sorted children⟩, ?_, ?_, ?_, fun ci => rfl, ?_, ?_,
    fun children => rfl, ?_⟩
  · intro c hc
    have hb : (c.status == Status.completed) = false := by simp [hc]
    unfold childMdParts childJsonPages
    rw [hb]
    exact ⟨rfl, rfl⟩
  · intro c hmd
    unfold childMdParts
    by_cases hb : (c.status == Status.completed) = true
    · rw [hb, hmd]
      rfl
    · rw [Bool.eq_false_iff.mpr hb]
      rfl
  · intro c md ci hst hmd hci
    unfold childMdParts
    rw [show (c.status == Status.completed) = true by simp [hst], hmd, hci]
    rfl
  · intro c ps ci hst hjs hci
    unfold childJsonPages chunkOffset
    rw [show (c.status == Status.completed) = true by simp [hst], hjs, hci]
    rfl
  · intro off n p hp
    unfold shiftPage
    rw [show p.page_number = some n from hp]
    rfl
  · intro db pid dir now p hu hfp hpr
    have hflag : (mergeParentFinalize db pid dir now).2 = true := by
      show db.any (finishGuard pid none) = true
      refine List.any_eq_true.mpr ⟨p, findTask_mem hfp, ?_⟩
      exact finishGuard_iff.mpr ⟨findTask_id hfp, hpr,
        fun w hw => Option.noConfusion hw⟩
    refine ⟨hflag, ?_⟩
    rcases finish_completed_row hu hflag with ⟨t, hft, _, hafter⟩
    rw [hfp] at hft
    rcases Option.some.injEq _ _ |>.mp hft with rfl
    exact hafter

/-- Two completed shard results (pages 1–500 and 501–1000). -/
def wShard1 : ChildView :=
  { task_id := "c1", status := .completed,
    chunkInfo := some { start_page := 1, end_page := 500 },
    mdContent := some "alpha",
    jsonPages := some [{ page_number := some 1 }] }

def wShard2 : ChildView :=
  { task_id := "c2", status := .completed,
    chunkInfo := some { start_page := 501, end_page := 1000 },
    mdContent := some "beta",
    jsonPages := some [{ page_number := some 2 }] }

/-- A failed shard the merge must skip. -/
def wShardBad : ChildView := { task_id := "c3", status := .failed }

/-- Witness for C7 on concrete shards: the failed shard contributes
nothing, page 2 of the second shard becomes global page 502, and merging
finalizes a processing parent. -/
theorem merge_parent_results_witness :
    (childMdParts wShardBad = [] ∧ childJsonPages wShardBad = []) ∧
    childMdParts wShard2 =
      [pageDelim { start_page := 501, end_page := 1000 }, "beta"] ∧
    childJsonPages wShard2 = [{ page_number := some 502 }] ∧
    (mergeParentFinalize [wParent] "P" "/out/P" 9).2 = true := by
  refine ⟨?_, ?_, ?_, ?_⟩
  · exact merge_parent_results.2.1 wShardBad (by decide)
  · exact merge_parent_results.2.2.2.1 wShard2 "beta"
      { start_page := 501, end_page := 1000 } (by decide) (by decide)
      (by decide)
  · have h := merge_parent_results.2.2.2.2.2.1 wShard2
      [{ page_number := some 2 }] { start_page := 501, end_page := 1000 }
      (by decide) (by decide) (by decide)
    rw [h]
    rfl
  · exact (merge_parent_results.2.2.2.2.2.2.2.2 [wParent] "P" "/out/P" 9
      wParent (by unfold uniqueKeys; simp) (by decide) (by decide)).1

/--
C10: the Normalizer's rewrite step is idempotent.  The markdown patterns
match only `images/<name>` references (`![alt](images/<name>)` or
`<img src="images/<name>">`); under the hypothesis that no mapping URL has
that shape (they are `http(s)://...` object-store URLs) a second
application of `_replace_markdown_urls` changes nothing, and under the
hypothesis that no URL re-triggers the JSON substring heuristic a second
application of `_replace_json_urls`'s `replace_paths` changes nothing.
-/
theorem normalizer_idempotent :
    (∀ (f url : String) (seg : MdSeg), rewriteMdImage f url seg ≠ seg →
      ∃ alt, seg = .mdImage alt (imagesRef f))
    ∧ (∀ (f url : String) (seg : MdSeg), rewriteHtmlImg f url seg ≠ seg →
        ∃ pre post, seg = .htmlImg pre (imagesRef f) post)
    ∧ (∀ (mapping : List (String × String)), goodMapping mapping →
        ∀ content : List MdSeg,
          replace_markdown_urls mapping
              (replace_markdown_urls mapping content) =
            replace_markdown_urls mapping content)
    ∧ (∀ (mapping : List (String × String)), goodJsonMapping mapping →
        ∀ j : Json,
          replacePaths mapping (replacePaths mapping j) =
            replacePaths mapping j) := by
  refine ⟨?_, ?_,
    fun mapping hg content => replace_markdown_urls_idem mapping hg content,
    fun mapping hj j => replacePaths_idem mapping hj j⟩
  · intro f url seg hne
    cases seg with
    | text s => exact absurd rfl hne
    | htmlImg pre src post => exact absurd rfl hne
    | mdImage alt path =>
        by_cases hp : (path == imagesRef f) = true
        · exact ⟨alt, by rw [show path = imagesRef f by simpa using hp]⟩
        · exact absurd (by simp [rewriteMdImage, hp]) hne
  · intro f url seg hne
    cases seg with
    | text s => exact absurd rfl hne
    | mdImage alt path => exact absurd rfl hne
    | htmlImg pre src post =>
        by_cases hp : (src == imagesRef f) = true
        · exact ⟨pre, post, by rw [show src = imagesRef f by simpa using hp]⟩
        · exact absurd (by simp [rewriteHtmlImg, hp]) hne

/-- A one-entry upload mapping with an object-store URL. -/
def wMapping : List (String × String) := [("a.jpg", "http://h/2024/x.jpg")]

/-- Markdown with one matching image reference and some text. -/
def wContent : List MdSeg :=
  [.mdImage "fig" "images/a.jpg", .text "hello",
   .htmlImg " " "images/a.jpg" ""]

def wJson : Json :=
  .obj [("img_path", .str "images/a.jpg"), ("n", .num 3)]

/-- Witness for C10 at the concrete mapping, content and JSON document. -/
theorem normalizer_idempotent_witness :
    replace_markdown_urls wMapping
        (replace_markdown_urls wMapping wContent) =
      replace_markdown_urls wMapping wContent ∧
    replacePaths wMapping (replacePaths wMapping wJson) =
      replacePaths wMapping wJson := by
  constructor
  · exact normalizer_idempotent.2.2.1 wMapping
      (by unfold goodMapping; decide) wContent
  · exact normalizer_idempotent.2.2.2 wMapping
      (by unfold goodJsonMapping; decide) wJson

end Tianshu
